import Mathlib

/-!
A shallow embedding of the retrieval core of the blog Q&A repository:
the Korean tokenizer, the sentence chunker, the TF-IDF index builder and
scorer, the extractive summarizer, the `handleAsk` fallback path
(`src/App.jsx`, both revisions) and the `/api/ask` serverless handler with
its context-budgeting loop (`api/ask.mjs`).

Modelling conventions:
* JavaScript strings are lists of Unicode scalar values (`List Char`);
  where JavaScript counts UTF-16 code units (`String.prototype.length`,
  `slice`), we count code units explicitly with `utf16Len` / `utf16Take`.
  The only unrepresentable behaviour is a `slice` that cuts an astral
  character in half (a lone surrogate), which no claim depends on.
* JavaScript `Map` and `Set` are association lists / lists with
  JavaScript's insertion-order, overwrite-in-place semantics
  (`jsMapSet`, `jsMapGet`, `jsSetListAux`).
* Numbers inside the scorer are modelled as exact real numbers, with
  `Real.log` for `Math.log`; integer quantities stay in `Nat`.
* Optional / possibly-`undefined` values are `Option`; the `x || d`
  idiom on strings is `Option.getD` plus an empty-string test.
-/

set_option maxHeartbeats 1600000

/-! ### JavaScript character classes -/

/-- The character set matched by the JavaScript regex class `\s`
(whitespace, line terminators, NBSP, Unicode spaces, BOM). -/
def isJsSpace (c : Char) : Bool :=
  let n := c.toNat
  decide ((9 ≤ n ∧ n ≤ 13) ∨ n = 32 ∨ n = 0xA0 ∨ n = 0x1680 ∨
    (0x2000 ≤ n ∧ n ≤ 0x200A) ∨ n = 0x2028 ∨ n = 0x2029 ∨ n = 0x202F ∨
    n = 0x205F ∨ n = 0x3000 ∨ n = 0xFEFF)

/-- Characters kept by the tokenizer's class `[a-z0-9가-힣]`:
lowercase ASCII letters, ASCII digits and Hangul syllables. -/
def isTokenChar (c : Char) : Bool :=
  let n := c.toNat
  decide ((97 ≤ n ∧ n ≤ 122) ∨ (48 ≤ n ∧ n ≤ 57) ∨ (0xAC00 ≤ n ∧ n ≤ 0xD7A3))

/-! ### Tokenizer (`tokenizeKorean`, App.jsx lines 21-28 / part_000 lines 16-23)

`(text || "").toLowerCase().replace(/[\n\r]/g, " ")
  .replace(/[^a-z0-9가-힣\s]/g, " ").split(/\s+/).filter(Boolean)`

All three replacement stages are character-wise, so they compose into
`normChar`.  (`Char.toLower` only lowercases A-Z while JavaScript
lowercases all of Unicode; the difference is invisible here because every
non-ASCII, non-Hangul character — lowercased or not — is replaced by a
space by the third stage.) -/

/-- One character through lowercasing, newline replacement, and the
non-`[a-z0-9가-힣\s]` → space replacement. -/
def normChar (c : Char) : Char :=
  let c1 := c.toLower
  let c2 := if c1 = '\n' ∨ c1 = '\r' then ' ' else c1
  if isTokenChar c2 || isJsSpace c2 then c2 else ' '

/-- `split(/\s+/).filter(Boolean)`: maximal runs of non-whitespace
characters, in order, empty strings dropped. `acc` is the current run,
reversed. -/
def splitTokensAux : List Char → List Char → List (List Char)
  | [], acc => if acc = [] then [] else [acc.reverse]
  | c :: rest, acc =>
    if isJsSpace c then
      if acc = [] then splitTokensAux rest [] else acc.reverse :: splitTokensAux rest []
    else splitTokensAux rest (c :: acc)

/-- `tokenizeKorean` on a (present) string. -/
def tokenizeKorean (s : List Char) : List (List Char) :=
  splitTokensAux (s.map normChar) []

/-- `tokenizeKorean` including the `(text || "")` guard for missing input. -/
def tokenizeKoreanJs (o : Option (List Char)) : List (List Char) :=
  tokenizeKorean (o.getD [])

/-! ### JavaScript `Map` / `Set` as insertion-ordered association lists -/

/-- `Map.prototype.set`: overwrite in place if the key exists, else append. -/
def jsMapSet {κ ν : Type} [DecidableEq κ] : List (κ × ν) → κ → ν → List (κ × ν)
  | [], k, v => [(k, v)]
  | p :: m, k, v => if p.1 = k then (k, v) :: m else p :: jsMapSet m k v

/-- `Map.prototype.get` (`none` = `undefined`). -/
def jsMapGet {κ ν : Type} [DecidableEq κ] : List (κ × ν) → κ → Option ν
  | [], _ => none
  | p :: m, k => if p.1 = k then some p.2 else jsMapGet m k

/-- The `(m.get(k) || 0)` idiom. -/
def getD0 {κ : Type} [DecidableEq κ] (m : List (κ × Nat)) (k : κ) : Nat :=
  (jsMapGet m k).getD 0

/-- `[...new Set(l)]`: the elements of `l` with first occurrences kept,
in first-occurrence order; `seen` accumulates the keys already emitted. -/
def jsSetListAux {α : Type} [DecidableEq α] (seen : List α) : List α → List α
  | [] => []
  | a :: l => if a ∈ seen then jsSetListAux seen l else a :: jsSetListAux (a :: seen) l

/-- `[...new Set(l)]`. -/
def jsSetList {α : Type} [DecidableEq α] (l : List α) : List α := jsSetListAux [] l

/-! ### Whitespace collapsing and trimming -/

/-- `replace(/\s+/g, " ")`; the `Bool` records whether the previous
character was part of a whitespace run already emitted as `' '`. -/
def collapseWsAux : List Char → Bool → List Char
  | [], _ => []
  | c :: rest, prevWs =>
    if isJsSpace c then
      if prevWs then collapseWsAux rest true else ' ' :: collapseWsAux rest true
    else c :: collapseWsAux rest false

/-- `replace(/\s+/g, " ")`. -/
def collapseWs (s : List Char) : List Char := collapseWsAux s false

/-- `String.prototype.trim`. -/
def trimWs (s : List Char) : List Char :=
  ((s.dropWhile isJsSpace).reverse.dropWhile isJsSpace).reverse

/-! ### Chunker (`chunkText`, App.jsx lines 30-47 / part_000 lines 25-42)

`(text || "").replace(/\s+/g, " ").split(/(?<=[.!?\n]|[다요요.]\s)/)`
then the buffer/overlap accumulation loop. -/

/-- The one-character lookbehind alternative `[.!?\n]`. -/
def isSentEnd (c : Char) : Bool := decide (c = '.' ∨ c = '!' ∨ c = '?' ∨ c = '\n')

/-- The character class `[다요요.]` (= `{다, 요, .}`). -/
def isHonor (c : Char) : Bool := decide (c = '다' ∨ c = '요' ∨ c = '.')

/-- Does the zero-width split point fire, given the previous character
`p1` and the one before it `p2`?  (`(?<=[.!?\n]|[다요요.]\s)`). -/
def chunkBoundary (p1 p2 : Option Char) : Bool :=
  match p1, p2 with
  | some a, some b => isSentEnd a || (isJsSpace a && isHonor b)
  | some a, none => isSentEnd a
  | none, _ => false

/-- Zero-width split: walk the string, starting a new segment at every
boundary position.  `acc` is the current segment reversed; `p1`, `p2`
are the previous two characters of the *original* string (the lookbehind
sees across segment boundaries). -/
def splitSentsAux : List Char → List Char → Option Char → Option Char → List (List Char)
  | [], acc, _, _ => [acc.reverse]
  | c :: rest, acc, p1, p2 =>
    if chunkBoundary p1 p2 then
      acc.reverse :: splitSentsAux rest [c] (some c) p1
    else splitSentsAux rest (c :: acc) (some c) p1

/-- `split(/(?<=[.!?\n]|[다요요.]\s)/)`.  On `""` this yields `[""]`,
matching JavaScript. -/
def splitSents (s : List Char) : List (List Char) := splitSentsAux s [] none none

/-- The chunk accumulation loop: flush the buffer when appending the next
segment would exceed `maxLen`, seeding the next buffer with the trailing
`overlap` characters. -/
def chunkLoop (maxLen overlap : Nat) : List (List Char) → List Char → List (List Char)
  | [], buf => if trimWs buf = [] then [] else [trimWs buf]
  | s :: rest, buf =>
    if maxLen < (buf ++ s).length then
      (if trimWs buf = [] then [] else [trimWs buf]) ++
        chunkLoop maxLen overlap rest (buf.drop (buf.length - overlap) ++ s)
    else chunkLoop maxLen overlap rest (buf ++ s)

/-- `chunkText(text, {maxLen, overlap})`. -/
def chunkText (t : List Char) (maxLen overlap : Nat) : List (List Char) :=
  chunkLoop maxLen overlap (splitSents (collapseWs t)) []

/-- `chunkText` at the default configuration `{maxLen: 420, overlap: 60}`. -/
def chunkTextDefault (t : List Char) : List (List Char) := chunkText t 420 60

/-! ### TF-IDF index and scorer (`buildTfIdfIndex`, part_000 lines 49-94) -/

/-- The `meta` object attached to each chunk by the caller. -/
structure ChunkMeta where
  title : List Char
  url : List Char
  docId : List Char
  chunkIndex : Nat
deriving DecidableEq

/-- A passage fed to `buildTfIdfIndex` (a `chunks` element: `{id, text, meta}`). -/
structure Passage where
  id : List Char
  text : List Char
  meta : ChunkMeta
deriving DecidableEq

/-- The per-passage record stored in `docTokens`: `{tf, len}`. -/
structure DocStats where
  tf : List (List Char × Nat)
  len : Nat
deriving DecidableEq

/-- `L.forEach(t => m.set(t, (m.get(t) || 0) + 1))`. -/
def bumpFold (m : List (List Char × Nat)) (L : List (List Char)) : List (List Char × Nat) :=
  L.foldl (fun m t => jsMapSet m t (getD0 m t + 1)) m

/-- The term-frequency map of a token list. -/
def tfMapOf (toks : List (List Char)) : List (List Char × Nat) := bumpFold [] toks

/-- The `{tf, len}` record built for one passage. -/
def docStatsOf (d : Passage) : DocStats :=
  ⟨tfMapOf (tokenizeKorean d.text), (tokenizeKorean d.text).length⟩

/-- The `docTokens` map, keyed by passage id. -/
def docTokensMap (docs : List Passage) : List (List Char × DocStats) :=
  docs.foldl (fun m d => jsMapSet m d.id (docStatsOf d)) []

/-- The `df` map: for each passage, bump every distinct token once
(`new Set(tokens)` preserves first-occurrence order). -/
def dfMap (docs : List Passage) : List (List Char × Nat) :=
  docs.foldl (fun m d => bumpFold m (jsSetList (tokenizeKorean d.text))) []

/-- The `n || d` idiom on a `Nat`. -/
def jsOr (n d : Nat) : Nat := if n = 0 then d else n

/-- `N = docs.length || 1`. -/
def corpusN (docs : List Passage) : Nat := jsOr docs.length 1

/-- `Math.log((N + 1) / ((df.get(t) || 0) + 1)) + 1`, over exact reals. -/
noncomputable def idf (docs : List Passage) (t : List Char) : ℝ :=
  Real.log (((corpusN docs : ℝ) + 1) / ((getD0 (dfMap docs) t : ℝ) + 1)) + 1

/-- The `qWeight` map built by
`qTokens.forEach(t => qWeight.set(t, (qtf.get(t) / qLen) * idf))`,
as an insertion-ordered entry list.  (`qtf.get(t)` is always defined for
`t ∈ qTokens`; the `getD0` default is never taken.) -/
noncomputable def qWeightEntries (docs : List Passage) (query : List Char) :
    List (List Char × ℝ) :=
  let qTokens := tokenizeKorean query
  let qtf := tfMapOf qTokens
  let qLen := jsOr qTokens.length 1
  qTokens.foldl (fun m t => jsMapSet m t (((getD0 qtf t : ℝ) / (qLen : ℝ)) * idf docs t)) []

/-- A `{id, score, meta}` result object. -/
structure ScoredResult where
  id : List Char
  score : ℝ
  meta : ChunkMeta

/-- One passage's accumulated score
`s += qw * ((dt.tf.get(t) || 0) / (dt.len || 1)) * idf`, summed over the
`qWeight` entries in insertion order. -/
noncomputable def docScoreSum (docs : List Passage) (query : List Char) (dt : DocStats) : ℝ :=
  ((qWeightEntries docs query).map (fun p =>
    p.2 * ((getD0 dt.tf p.1 : ℝ) / (jsOr dt.len 1 : ℝ)) * idf docs p.1)).sum

/-- The unsorted `results` array: one push per passage, skipped only when
the `docTokens` lookup fails (`if (!dt) return`). -/
noncomputable def scoreResultsRaw (docs : List Passage) (query : List Char) :
    List ScoredResult :=
  docs.filterMap (fun d =>
    (jsMapGet (docTokensMap docs) d.id).map (fun dt =>
      ⟨d.id, docScoreSum docs query dt, d.meta⟩))

/-- The ordering of `results.sort((a, b) => b.score - a.score)`:
`a` may precede `b` iff `b.score ≤ a.score`. -/
def scoreDesc (a b : ScoredResult) : Prop := b.score ≤ a.score

noncomputable instance : DecidableRel scoreDesc :=
  fun a b => Real.decidableLE b.score a.score

instance : IsTotal ScoredResult scoreDesc := ⟨fun a b => le_total b.score a.score⟩

instance : IsTrans ScoredResult scoreDesc := ⟨fun _ _ _ h1 h2 => le_trans h2 h1⟩

/-- `index.score(query)`: the results sorted by score descending (a stable
sort, like the V8 runtime's). -/
noncomputable def score (docs : List Passage) (query : List Char) : List ScoredResult :=
  List.insertionSort scoreDesc (scoreResultsRaw docs query)

/-! ### Scorer, as the specification words it (for the refinement claim C2) -/

/-- Spec-side document frequency: the number of passages containing `t`
(0 for terms absent from the corpus). -/
def specDf (docs : List Passage) (t : List Char) : Nat :=
  docs.countP (fun d => decide (t ∈ tokenizeKorean d.text))

/-- Spec-side `idf(t) = ln((N+1)/(df(t)+1)) + 1`, `N` the passage count
floored at 1. -/
noncomputable def specIdf (docs : List Passage) (t : List Char) : ℝ :=
  Real.log (((jsOr docs.length 1 : ℝ) + 1) / ((specDf docs t : ℝ) + 1)) + 1

/-- Spec-side score of passage `d`:
`Σ_t qw(t) * (tf_d(t)/len_d) * idf(t)` over the distinct query terms,
with `qw(t) = (qtf(t)/qLen) * idf(t)`, `qLen` and `len_d` floored at 1. -/
noncomputable def specScore (docs : List Passage) (query : List Char) (d : Passage) : ℝ :=
  let qT := tokenizeKorean query
  let qLen := jsOr qT.length 1
  let dT := tokenizeKorean d.text
  let len := jsOr dT.length 1
  (qT.dedup.map (fun t =>
    (((qT.count t : ℝ) / (qLen : ℝ)) * specIdf docs t) *
      ((dT.count t : ℝ) / (len : ℝ)) * specIdf docs t)).sum

/-! ### UTF-16 lengths and JSON serialization (for `/api/ask`) -/

/-- UTF-16 code units occupied by one scalar value. -/
def utf16Width (c : Char) : Nat := if c.toNat < 0x10000 then 1 else 2

/-- `String.prototype.length` (UTF-16 code units). -/
def utf16Len (s : List Char) : Nat := (s.map utf16Width).sum

/-- `slice(0, n)` by UTF-16 budget (an astral character that would
straddle the cut is dropped whole; JavaScript would keep a lone
surrogate, which a scalar-value string cannot represent). -/
def utf16Take : Nat → List Char → List Char
  | _, [] => []
  | n, c :: rest =>
    if utf16Width c ≤ n then c :: utf16Take (n - utf16Width c) rest else []

/-- Lowercase hexadecimal digit. -/
def hexDigit (n : Nat) : Char := if n < 10 then Char.ofNat (48 + n) else Char.ofNat (87 + n)

/-- `JSON.stringify` escaping of one character. -/
def jsonEscapeChar (c : Char) : List Char :=
  if c = '"' then ['\\', '"']
  else if c = '\\' then ['\\', '\\']
  else if c = '\x08' then ['\\', 'b']
  else if c = '\t' then ['\\', 't']
  else if c = '\n' then ['\\', 'n']
  else if c = '\x0c' then ['\\', 'f']
  else if c = '\r' then ['\\', 'r']
  else if c.toNat < 0x20 then ['\\', 'u', '0', '0', hexDigit (c.toNat / 16), hexDigit (c.toNat % 16)]
  else [c]

/-- `JSON.stringify` of a string value. -/
def jsonQuote (s : List Char) : List Char := '"' :: (s.flatMap jsonEscapeChar ++ ['"'])

/-! ### `/api/ask` handler (api/ask.mjs lines 5-31) -/

/-- An element of the incoming `contexts` array (fields may be absent). -/
structure CtxIn where
  text : Option (List Char)
  url : Option (List Char)
  title : Option (List Char)
deriving DecidableEq

/-- The cleaned item `{text: t, url: c.url || "", title: c.title || ""}`. -/
structure CtxItem where
  text : List Char
  url : List Char
  title : List Char
deriving DecidableEq

/-- `JSON.stringify(item)` for `{text, url, title}` (key order as in the
object literal). -/
def jsonOfItem (it : CtxItem) : List Char :=
  "\x7b\"text\":".data ++ jsonQuote it.text ++ ",\"url\":".data ++ jsonQuote it.url ++
    ",\"title\":".data ++ jsonQuote it.title ++ "\x7d".data

/-- `JSON.stringify(item).length`. -/
def itemLenJs (it : CtxItem) : Nat := utf16Len (jsonOfItem it)

/-- `{text: (c.text || "").slice(0, 1500), url: c.url || "", title: c.title || ""}`. -/
def normItem (c : CtxIn) : CtxItem :=
  ⟨utf16Take 1500 (c.text.getD []), c.url.getD [], c.title.getD []⟩

/-- The `limited` accumulation loop: accept items until the running total
of serialized sizes would exceed `chunksizeLimit = 8000`, then `break`. -/
def limitAux : List CtxIn → Nat → List CtxItem
  | [], _ => []
  | c :: rest, acc =>
    let item := normItem c
    let len := itemLenJs item
    if 8000 < acc + len then [] else item :: limitAux rest (acc + len)

/-- The `limited` array computed by the handler. -/
def limitContexts (cs : List CtxIn) : List CtxItem := limitAux cs 0

/-- The total serialized size accounted by the loop (the final `acc`). -/
def sumItemLens (l : List CtxItem) : Nat := (l.map itemLenJs).sum

/-- The `contexts` field of the request body: absent, present but not an
array, or an array. -/
inductive CtxField
  | missing
  | notArray
  | arr (l : List CtxIn)
deriving DecidableEq

/-- The parsed request body. -/
structure AskBody where
  question : Option (List Char)
  contexts : CtxField
deriving DecidableEq

/-- The incoming request, as far as the handler reads it. -/
structure AskReq where
  method : Option (List Char)
  body : Option AskBody
deriving DecidableEq

/-- `req.method || (req.body ? "POST" : "GET")` (an absent or empty
method string is falsy). -/
def effMethod (r : AskReq) : List Char :=
  let fb := if r.body.isSome then "POST".data else "GET".data
  match r.method with
  | some m => if m = [] then fb else m
  | none => fb

/-- `!question` for a string-or-absent field. -/
def qFalsy : Option (List Char) → Bool
  | none => true
  | some s => decide (s = [])

/-- `Array.isArray(contexts)`. -/
def CtxField.isArr : CtxField → Bool
  | arr _ => true
  | _ => false

/-- The array payload (only meaningful when `isArr`). -/
def CtxField.list : CtxField → List CtxIn
  | arr l => l
  | _ => []

/-- How the handler disposes of a request before the generation call:
405, 400, or proceed to the OpenAI call with the budgeted `limited`. -/
inductive AskOutcome
  | status405
  | status400
  | proceed (limited : List CtxItem)
deriving DecidableEq

/-- Lines 7-31 of `api/ask.mjs`: method gate, body validation, and the
context-budgeting loop.  `proceed limited` is the unique path on which
the generation request is issued. -/
def askHandler (r : AskReq) : AskOutcome :=
  if effMethod r ≠ "POST".data then .status405
  else
    let b := r.body.getD ⟨none, .missing⟩
    if qFalsy b.question || !b.contexts.isArr then .status400
    else .proceed (limitContexts b.contexts.list)

/-! ### `handleAsk` fallback path (part_000 lines 140-214) -/

/-- An element of `topContexts`: `{text, url, title}` with the `|| ""`
defaults already applied. -/
structure TopCtx where
  text : List Char
  url : List Char
  title : List Char
deriving DecidableEq

/-- Outcome of the `/api/ask` fetch as `handleAsk` observes it: a parsed
answer, a non-success HTTP response (`!res.ok` throws), or a network
error. -/
inductive GenOutcome
  | ok (answer : List Char)
  | httpError (msg : List Char)
  | networkError
deriving DecidableEq

/-- Did the generation call fail (either way ends in the `catch` block)? -/
def GenOutcome.failed : GenOutcome → Bool
  | .ok _ => false
  | _ => true

/-- One fallback bullet:
``• ${c.text.slice(0, 200)}${c.text.length > 200 ? "..." : ""}``. -/
def excerptLine (c : TopCtx) : List Char :=
  "• ".data ++ (utf16Take 200 c.text ++ (if 200 < utf16Len c.text then "...".data else []))

/-- `${i + 1}. ${u}` numbering of deduplicated fallback links. -/
def numberLines (us : List (List Char)) : List (List Char) :=
  us.enum.map (fun p => (Nat.repr (p.1 + 1)).data ++ ". ".data ++ p.2)

/-- The `catch` block of `handleAsk`: excerpt bullets from the top
contexts plus a deduplicated link list (part_000 lines 190-208). -/
def fallbackMessage (ctxs : List TopCtx) : List Char :=
  let answers := ctxs.map excerptLine
  let refs := (ctxs.filter (fun c => !decide (c.url = []))).map (fun c => c.url)
  (if answers = [] then "관련 내용을 찾지 못했습니다.".data
   else "임시 발췌 요약:\n".data ++ List.intercalate "\n".data answers) ++
  (if refs = [] then []
   else "\n\n관련 링크:\n".data ++ List.intercalate "\n".data (numberLines (jsSetList refs)))

/-- The `uniqRefs` loop of the success path (first context wins per URL;
title falls back to the URL). -/
def uniqRefsAux (seen : List (List Char)) : List TopCtx → List (List Char × List Char)
  | [] => []
  | c :: rest =>
    if c.url ≠ [] ∧ c.url ∉ seen then
      ((if c.title = [] then c.url else c.title), c.url) :: uniqRefsAux (c.url :: seen) rest
    else uniqRefsAux seen rest

/-- `${i + 1}. ${r.title} — ${r.url}` lines of the success path. -/
def refLines (rs : List (List Char × List Char)) : List (List Char) :=
  rs.enum.map (fun p => (Nat.repr (p.1 + 1)).data ++ ". ".data ++ p.2.1 ++ " — ".data ++ p.2.2)

/-- The success-path message `withLinks` (part_000 lines 171-186). -/
def successMessage (answer : List Char) (ctxs : List TopCtx) : List Char :=
  let ur := uniqRefsAux [] ctxs
  answer ++ "\n\n관련 링크:\n".data ++
    (if ur = [] then "지정된 링크가 없습니다.".data
     else List.intercalate "\n".data (refLines ur))

/-- What `handleAsk` appends to the chat as the assistant reply, as a
function of the generation outcome: the `try` branch on success, the
`catch` fallback on failure. -/
def handleAskReply (ctxs : List TopCtx) (g : GenOutcome) : List Char :=
  match g with
  | .ok a => successMessage a ctxs
  | _ => fallbackMessage ctxs

/-! ### Extractive summarizer (`extractKeySentences`, src/App.jsx lines 101-115) -/

/-- The one-character lookbehind alternative `[.!?]` of the summarizer's
splitter. -/
def isSentEndKey (c : Char) : Bool := decide (c = '.' ∨ c = '!' ∨ c = '?')

/-- The class `[다요]` of the two-character alternative `[다요]\.`. -/
def isHonorKey (c : Char) : Bool := decide (c = '다' ∨ c = '요')

/-- Lookbehind of `split(/(?<=[.!?]|[다요]\.)\s+/)` at a whitespace run
start, given the previous two characters. -/
def keyBoundary (p1 p2 : Option Char) : Bool :=
  match p1, p2 with
  | some a, some b => isSentEndKey a || (decide (a = '.') && isHonorKey b)
  | some a, none => isSentEndKey a
  | none, _ => false

/-- `split(/(?<=[.!?]|[다요]\.)\s+/)`: a whitespace run whose start
position satisfies the lookbehind is consumed as a separator (the
`Bool` marks that the run is still being consumed); other whitespace
stays inside the segment.  Within a separator run no new match can
start (the lookbehind sees only whitespace), so dropping it greedily is
exact. -/
def splitKeyAux : List Char → List Char → Option Char → Option Char → Bool → List (List Char)
  | [], acc, _, _, _ => [acc.reverse]
  | c :: rest, acc, p1, p2, skipping =>
    if skipping then
      if isJsSpace c then splitKeyAux rest acc p1 p2 true
      else splitKeyAux rest [c] (some c) none false
    else if isJsSpace c && keyBoundary p1 p2 then
      acc.reverse :: splitKeyAux rest [] none none true
    else splitKeyAux rest (c :: acc) (some c) p1 false

/-- A ranked sentence `{s, overlap, len}`. -/
structure RankedSent where
  s : List Char
  overlap : Nat
  len : Nat
deriving DecidableEq

/-- The comparator `(b.overlap - a.overlap) || (a.len - b.len)`:
`a` may precede `b` iff it has larger overlap, or equal overlap and no
greater length. -/
def sentRank (a b : RankedSent) : Prop :=
  b.overlap < a.overlap ∨ (a.overlap = b.overlap ∧ a.len ≤ b.len)

instance : DecidableRel sentRank :=
  fun a b => inferInstanceAs (Decidable (b.overlap < a.overlap ∨ (a.overlap = b.overlap ∧ a.len ≤ b.len)))

/-- `extractKeySentences(text, query, max)`: split into sentences, rank
by distinct-query-term overlap (ties: shorter first, stable), return the
top `max`, trimmed. -/
def extractKeySentences (text query : List Char) (mx : Nat) : List (List Char) :=
  let sentences := (splitKeyAux (collapseWs text) [] none none false).filter
    (fun s => !decide (s = []) && !decide (trimWs s = []))
  let qSet := jsSetList (tokenizeKorean query)
  let ranked := List.insertionSort sentRank (sentences.map (fun s =>
    ⟨s, (qSet.filter (fun t => decide (t ∈ tokenizeKorean s))).length, utf16Len s⟩))
  (ranked.take mx).map (fun r => trimWs r.s)

/-! ### The extractive display path (src/App.jsx handleAsk, lines 144-164)

The §4.6 assistant message built from extractive key sentences of the
top passages — the display the non-LLM revision shows, used here as the
formal reading of "a locally-extracted summary produced by the
extractive-summarizer path". -/

/-- The `• ${keySents.join(" ")}` bullet of one passage (skipped when no
key sentence is found). -/
def extractiveAnswerLine (question : List Char) (c : TopCtx) : Option (List Char) :=
  let ks := extractKeySentences c.text question 2
  if ks = [] then none else some ("• ".data ++ List.intercalate " ".data ks)

/-- `uniqueBy(refs, "url")`. -/
def uniqueByUrlAux (seen : List (List Char)) :
    List (List Char × List Char) → List (List Char × List Char)
  | [] => []
  | r :: rest =>
    if r.1 ∈ seen then uniqueByUrlAux seen rest
    else r :: uniqueByUrlAux (r.1 :: seen) rest

/-- The assistant text of the extractive (non-LLM) revision, applied to
the top passages: bullets of key sentences plus up to five deduplicated
links, or the "nothing found" message. -/
def extractiveDisplay (question : List Char) (ctxs : List TopCtx) : List Char :=
  let answers := ctxs.filterMap (extractiveAnswerLine question)
  let refs := (ctxs.filterMap (fun c =>
    if extractKeySentences c.text question 2 = [] then none else some (c.url, c.title))).filter
      (fun r => !decide (r.1 = []))
  let uniq := (uniqueByUrlAux [] refs).take 5
  if answers = [] then
    "현재 지식베이스에서 관련 내용을 찾지 못했어요.\n\n팁: 관리자 탭에서 블로그 글을 추가하거나, 질문을 더 구체적으로 바꿔보세요.".data
  else
    "질문 요지: ".data ++ question ++ "\n\n추천 답변(발췌 요약)\n".data ++
      List.intercalate "\n".data answers ++ "\n\n관련 블로그 링크:\n".data ++
      List.intercalate "\n".data (uniq.enum.map (fun p =>
        (Nat.repr (p.1 + 1)).data ++ ". ".data ++
          (if p.2.2 = [] then p.2.1 else p.2.2) ++ " — ".data ++ p.2.1))

/-! ## Lemmas: JavaScript `Map` / `Set` -/

theorem jsMapGet_set {κ ν : Type} [DecidableEq κ] (m : List (κ × ν)) (k : κ) (v : ν)
    (k' : κ) : jsMapGet (jsMapSet m k v) k' = if k' = k then some v else jsMapGet m k' := by
  induction m with
  | nil =>
    by_cases h : k' = k
    · subst h; simp [jsMapSet, jsMapGet]
    · simp [jsMapSet, jsMapGet, h, Ne.symm h]
  | cons p m ih =>
    rw [jsMapSet]
    by_cases hp : p.1 = k
    · rw [if_pos hp]
      by_cases h : k' = k
      · subst h; simp [jsMapGet]
      · rw [jsMapGet, if_neg (fun hh : k = k' => h hh.symm), if_neg h, jsMapGet,
          if_neg (fun hh : p.1 = k' => h (hp.symm.trans hh).symm)]
    · rw [if_neg hp, jsMapGet]
      by_cases hq : p.1 = k'
      · rw [if_pos hq, if_neg (fun hh : k' = k => hp (hq.trans hh)), jsMapGet, if_pos hq]
      · rw [if_neg hq, ih]
        by_cases h : k' = k
        · rw [if_pos h, if_pos h]
        · rw [if_neg h, if_neg h, jsMapGet, if_neg hq]

theorem jsMapGet_eq_none_iff {κ ν : Type} [DecidableEq κ] (m : List (κ × ν)) (k : κ) :
    jsMapGet m k = none ↔ k ∉ m.map Prod.fst := by
  induction m with
  | nil => simp [jsMapGet]
  | cons p m ih =>
    rw [jsMapGet]
    by_cases h : p.1 = k
    · rw [if_pos h]
      simp only [List.map_cons, List.mem_cons]
      constructor
      · intro hs; exact absurd hs (by simp)
      · intro hk; exact absurd (Or.inl h.symm) hk
    · rw [if_neg h, ih]
      simp only [List.map_cons, List.mem_cons]
      constructor
      · intro hk hmem
        rcases hmem with hmem | hmem
        · exact h hmem.symm
        · exact hk hmem
      · intro hk hmem; exact hk (Or.inr hmem)

theorem jsMapSet_of_get_none {κ ν : Type} [DecidableEq κ] {m : List (κ × ν)} {k : κ}
    (v : ν) (h : jsMapGet m k = none) : jsMapSet m k v = m ++ [(k, v)] := by
  induction m with
  | nil => simp [jsMapSet]
  | cons p m ih =>
    rw [jsMapGet] at h
    by_cases hp : p.1 = k
    · rw [if_pos hp] at h; exact absurd h (by simp)
    · rw [if_neg hp] at h
      rw [jsMapSet, if_neg hp, ih h, List.cons_append]

theorem jsMapSet_of_get_self {κ ν : Type} [DecidableEq κ] {m : List (κ × ν)} {k : κ}
    {v : ν} (h : jsMapGet m k = some v) : jsMapSet m k v = m := by
  induction m with
  | nil => rw [jsMapGet] at h; exact absurd h (by simp)
  | cons p m ih =>
    obtain ⟨pk, pv⟩ := p
    by_cases hp : pk = k
    · subst hp
      rw [jsMapGet] at h
      simp only [if_pos rfl] at h
      have hv : pv = v := by injection h
      subst hv
      rw [jsMapSet]
      simp
    · rw [jsMapGet] at h
      simp only [if_neg hp] at h
      rw [jsMapSet]
      simp only [if_neg hp]
      rw [ih h]

theorem jsMapGet_valfun {κ ν : Type} [DecidableEq κ] (v : κ → ν) (m : List (κ × ν))
    (hvals : ∀ p ∈ m, p.2 = v p.1) {k : κ} (hk : k ∈ m.map Prod.fst) :
    jsMapGet m k = some (v k) := by
  induction m with
  | nil => simp at hk
  | cons p m ih =>
    by_cases hp : p.1 = k
    · have hv : p.2 = v p.1 := hvals p (by simp)
      rw [jsMapGet, if_pos hp, hv, hp]
    · simp only [List.map_cons, List.mem_cons] at hk
      rcases hk with hk | hk
      · exact absurd hk.symm hp
      · rw [jsMapGet, if_neg hp]
        exact ih (fun q hq => hvals q (by simp [hq])) hk

theorem mem_jsSetListAux {α : Type} [DecidableEq α] (l : List α) :
    ∀ (seen : List α) (b : α), b ∈ jsSetListAux seen l ↔ b ∈ l ∧ b ∉ seen := by
  induction l with
  | nil => intro seen b; simp [jsSetListAux]
  | cons a l ih =>
    intro seen b
    by_cases ha : a ∈ seen
    · rw [jsSetListAux, if_pos ha, ih]
      constructor
      · rintro ⟨h1, h2⟩; exact ⟨by simp [h1], h2⟩
      · rintro ⟨h1, h2⟩
        rcases List.mem_cons.mp h1 with rfl | h1
        · exact absurd ha h2
        · exact ⟨h1, h2⟩
    · rw [jsSetListAux, if_neg ha]
      simp only [List.mem_cons, ih]
      constructor
      · rintro (rfl | ⟨h1, h2⟩)
        · exact ⟨Or.inl rfl, ha⟩
        · refine ⟨Or.inr h1, fun hb => h2 (by simp [hb])⟩
      · rintro ⟨rfl | h1, h2⟩
        · exact Or.inl rfl
        · by_cases hba : b = a
          · exact Or.inl hba
          · exact Or.inr ⟨h1, by simp [h2, hba]⟩

theorem nodup_jsSetListAux {α : Type} [DecidableEq α] (l : List α) :
    ∀ seen : List α, (jsSetListAux seen l).Nodup := by
  induction l with
  | nil => intro seen; simp [jsSetListAux]
  | cons a l ih =>
    intro seen
    by_cases ha : a ∈ seen
    · rw [jsSetListAux, if_pos ha]; exact ih seen
    · rw [jsSetListAux, if_neg ha]
      refine List.Nodup.cons (fun hmem => ?_) (ih (a :: seen))
      have := (mem_jsSetListAux l (a :: seen) a).mp hmem
      exact this.2 (by simp)

theorem jsSetListAux_congr {α : Type} [DecidableEq α] (l : List α) :
    ∀ (s1 s2 : List α), (∀ a, a ∈ s1 ↔ a ∈ s2) → jsSetListAux s1 l = jsSetListAux s2 l := by
  induction l with
  | nil => intro s1 s2 _; rfl
  | cons a l ih =>
    intro s1 s2 h
    by_cases ha : a ∈ s1
    · rw [jsSetListAux, if_pos ha, jsSetListAux, if_pos ((h a).mp ha)]
      exact ih s1 s2 h
    · rw [jsSetListAux, if_neg ha, jsSetListAux, if_neg (fun hx => ha ((h a).mpr hx))]
      rw [ih (a :: s1) (a :: s2) (fun b => by simp [h b])]

theorem mem_jsSetList {α : Type} [DecidableEq α] {l : List α} {b : α} :
    b ∈ jsSetList l ↔ b ∈ l := by
  rw [jsSetList, mem_jsSetListAux]; simp

theorem count_le_one_of_nodup {l : List (List Char)} (h : l.Nodup) (t : List Char) :
    l.count t ≤ 1 := by
  induction l with
  | nil => simp
  | cons a l ih =>
    rw [List.count_cons]
    rcases List.nodup_cons.mp h with ⟨ha, hl⟩
    by_cases hta : t = a
    · subst hta
      have hz : l.count t = 0 := List.count_eq_zero.mpr ha
      simp [hz]
    · rw [if_neg (by simp only [beq_iff_eq]; exact fun h => hta h.symm)]
      simpa using ih hl

theorem count_jsSetList (l : List (List Char)) (t : List Char) :
    (jsSetList l).count t = if t ∈ l then 1 else 0 := by
  by_cases h : t ∈ l
  · rw [if_pos h]
    have hmem : t ∈ jsSetList l := mem_jsSetList.mpr h
    have h1 : 0 < (jsSetList l).count t := List.count_pos_iff.mpr hmem
    have h2 : (jsSetList l).count t ≤ 1 :=
      count_le_one_of_nodup (nodup_jsSetListAux l []) t
    omega
  · rw [if_neg h, List.count_eq_zero]
    exact fun hmem => h (mem_jsSetList.mp hmem)

theorem jsSetList_perm_dedup {α : Type} [DecidableEq α] (l : List α) :
    (jsSetList l).Perm l.dedup := by
  refine List.Subperm.antisymm ?_ ?_
  · exact List.subperm_of_subset (nodup_jsSetListAux l [])
      (fun a ha => List.mem_dedup.mpr (mem_jsSetList.mp ha))
  · exact List.subperm_of_subset (List.nodup_dedup l)
      (fun a ha => mem_jsSetList.mpr (List.mem_dedup.mp ha))

theorem getD0_bumpFold (L : List (List Char)) :
    ∀ (m : List (List Char × Nat)) (t : List Char),
      getD0 (bumpFold m L) t = getD0 m t + L.count t := by
  induction L with
  | nil => intro m t; simp [bumpFold]
  | cons u L ih =>
    intro m t
    have hstep : bumpFold m (u :: L) = bumpFold (jsMapSet m u (getD0 m u + 1)) L := rfl
    rw [hstep, ih]
    unfold getD0
    rw [jsMapGet_set, List.count_cons]
    by_cases h : t = u
    · subst h
      rw [if_pos rfl, if_pos (by simp)]
      simp only [Option.getD_some]
      omega
    · rw [if_neg h, if_neg (by simp only [beq_iff_eq]; exact fun hh => h hh.symm)]
      omega

theorem foldl_setvalfun {ν : Type} (v : List Char → ν) (L : List (List Char)) :
    ∀ (m : List (List Char × ν)), (∀ p ∈ m, p.2 = v p.1) →
      L.foldl (fun m t => jsMapSet m t (v t)) m
        = m ++ (jsSetListAux (m.map Prod.fst) L).map (fun t => (t, v t)) := by
  induction L with
  | nil => intro m _; simp [jsSetListAux]
  | cons t L ih =>
    intro m hm
    by_cases ht : t ∈ m.map Prod.fst
    · have hget : jsMapGet m t = some (v t) := jsMapGet_valfun v m hm ht
      have hset : jsMapSet m t (v t) = m := jsMapSet_of_get_self hget
      show L.foldl (fun m t => jsMapSet m t (v t)) (jsMapSet m t (v t)) = _
      rw [hset, ih m hm, jsSetListAux, if_pos ht]
    · have hget : jsMapGet m t = none := (jsMapGet_eq_none_iff m t).mpr ht
      have hset : jsMapSet m t (v t) = m ++ [(t, v t)] := jsMapSet_of_get_none _ hget
      show L.foldl (fun m t => jsMapSet m t (v t)) (jsMapSet m t (v t)) = _
      have hvals : ∀ p ∈ m ++ [(t, v t)], p.2 = v p.1 := by
        intro p hp
        rcases List.mem_append.mp hp with hp | hp
        · exact hm p hp
        · simp at hp; simp [hp]
      rw [hset, ih (m ++ [(t, v t)]) hvals]
      have hkeys : (m ++ [(t, v t)]).map Prod.fst = m.map Prod.fst ++ [t] := by simp
      have hseen : ∀ a : List Char, a ∈ m.map Prod.fst ++ [t] ↔ a ∈ t :: m.map Prod.fst := by
        intro a
        constructor
        · intro h
          rcases List.mem_append.mp h with h | h
          · exact List.mem_cons_of_mem _ h
          · rcases List.mem_singleton.mp h with rfl
            exact List.mem_cons_self _ _
        · intro h
          rcases List.mem_cons.mp h with rfl | h
          · exact List.mem_append.mpr (Or.inr (List.mem_singleton.mpr rfl))
          · exact List.mem_append.mpr (Or.inl h)
      rw [hkeys, jsSetListAux_congr L (m.map Prod.fst ++ [t]) (t :: m.map Prod.fst) hseen]
      rw [jsSetListAux, if_neg ht]
      simp [List.append_assoc]

/-! ## Lemmas: tokenizer -/

theorem isTokenChar_not_space {c : Char} (h : isTokenChar c = true) :
    isJsSpace c = false := by
  simp only [isTokenChar, decide_eq_true_eq] at h
  simp only [isJsSpace, decide_eq_false_iff_not]
  omega

theorem normChar_cases (c : Char) :
    isJsSpace (normChar c) = true ∨ isTokenChar (normChar c) = true := by
  unfold normChar
  by_cases h : (isTokenChar (if c.toLower = '\n' ∨ c.toLower = '\r' then ' ' else c.toLower) ||
      isJsSpace (if c.toLower = '\n' ∨ c.toLower = '\r' then ' ' else c.toLower)) = true
  · simp only [if_pos h]
    rcases Bool.or_eq_true_iff.mp h with h' | h'
    · exact Or.inr h'
    · exact Or.inl h'
  · simp only [if_neg h]
    left; decide

theorem normChar_fixed {c : Char} (h : isTokenChar c = true) : normChar c = c := by
  have h' := h
  simp only [isTokenChar, decide_eq_true_eq] at h'
  have hlow : c.toLower = c := by
    unfold Char.toLower
    rw [if_neg]
    omega
  have hn : ¬(c.toLower = '\n' ∨ c.toLower = '\r') := by
    rw [hlow]
    rintro (rfl | rfl)
    · exact absurd h' (by decide)
    · exact absurd h' (by decide)
  have hstep : normChar c
      = if isTokenChar (if c.toLower = '\n' ∨ c.toLower = '\r' then ' ' else c.toLower) ||
          isJsSpace (if c.toLower = '\n' ∨ c.toLower = '\r' then ' ' else c.toLower)
        then (if c.toLower = '\n' ∨ c.toLower = '\r' then ' ' else c.toLower) else ' ' := rfl
  rw [hstep, if_neg hn, hlow, if_pos (by simp [h])]

theorem splitTokensAux_sound (P : Char → Prop) :
    ∀ (s acc : List Char),
      (∀ c ∈ s, isJsSpace c = true ∨ (isJsSpace c = false ∧ P c)) →
      (∀ c ∈ acc, isJsSpace c = false ∧ P c) →
      ∀ t ∈ splitTokensAux s acc, t ≠ [] ∧ ∀ c ∈ t, isJsSpace c = false ∧ P c := by
  intro s
  induction s with
  | nil =>
    intro acc _ hacc t ht
    rw [splitTokensAux] at ht
    by_cases hemp : acc = []
    · rw [if_pos hemp] at ht; simp at ht
    · rw [if_neg hemp] at ht
      rcases List.mem_singleton.mp ht with rfl
      refine ⟨by simpa using hemp, fun c hc => hacc c (List.mem_reverse.mp hc)⟩
  | cons a s ih =>
    intro acc hs hacc t ht
    rw [splitTokensAux] at ht
    by_cases hsp : isJsSpace a = true
    · rw [if_pos hsp] at ht
      by_cases hemp : acc = []
      · rw [if_pos hemp] at ht
        exact ih [] (fun c hc => hs c (by simp [hc])) (by simp) t ht
      · rw [if_neg hemp] at ht
        rcases List.mem_cons.mp ht with rfl | ht
        · refine ⟨by simpa using hemp, fun c hc => hacc c (List.mem_reverse.mp hc)⟩
        · exact ih [] (fun c hc => hs c (by simp [hc])) (by simp) t ht
    · rw [if_neg hsp] at ht
      have ha : isJsSpace a = false ∧ P a := by
        rcases hs a (by simp) with h | h
        · exact absurd h hsp
        · exact h
      refine ih (a :: acc) (fun c hc => hs c (by simp [hc])) ?_ t ht
      intro c hc
      rcases List.mem_cons.mp hc with rfl | hc
      · exact ha
      · exact hacc c hc

theorem tokenize_tokens_good (s : List Char) :
    ∀ t ∈ tokenizeKorean s, t ≠ [] ∧ ∀ c ∈ t, isJsSpace c = false ∧ isTokenChar c = true := by
  intro t ht
  refine splitTokensAux_sound (fun c => isTokenChar c = true) (s.map normChar) [] ?_ (by simp) t ht
  intro c hc
  rcases List.mem_map.mp hc with ⟨d, _, rfl⟩
  rcases normChar_cases d with h | h
  · exact Or.inl h
  · exact Or.inr ⟨isTokenChar_not_space h, h⟩

theorem splitTokensAux_run (rest : List Char) :
    ∀ (t acc : List Char), (∀ c ∈ t, isJsSpace c = false) →
      splitTokensAux (t ++ rest) acc = splitTokensAux rest (t.reverse ++ acc) := by
  intro t
  induction t with
  | nil => intro acc _; simp
  | cons c t ih =>
    intro acc hgood
    rw [List.cons_append, splitTokensAux, if_neg (by simp [hgood c (by simp)])]
    rw [ih (c :: acc) (fun d hd => hgood d (by simp [hd]))]
    simp

theorem intercalate_nil {α : Type} (sep : List α) :
    List.intercalate sep ([] : List (List α)) = [] := by
  simp [List.intercalate]

theorem intercalate_single {α : Type} (sep : List α) (x : List α) :
    List.intercalate sep [x] = x := by
  simp [List.intercalate]

theorem intercalate_cons₂ {α : Type} (sep : List α) (x y : List α) (l : List (List α)) :
    List.intercalate sep (x :: y :: l) = x ++ sep ++ List.intercalate sep (y :: l) := by
  simp [List.intercalate, List.intersperse]

theorem splitTokens_intercalate :
    ∀ ts : List (List Char),
      (∀ t ∈ ts, t ≠ [] ∧ ∀ c ∈ t, isJsSpace c = false) →
      splitTokensAux (List.intercalate [' '] ts) [] = ts := by
  intro ts
  induction ts with
  | nil => intro _; rw [intercalate_nil]; rfl
  | cons t ts ih =>
    intro hgood
    cases ts with
    | nil =>
      rw [intercalate_single]
      have := splitTokensAux_run [] t [] (fun c hc => (hgood t (by simp)).2 c hc)
      rw [(by simp : t ++ ([] : List Char) = t)] at this
      rw [this, splitTokensAux, if_neg (by simpa using (hgood t (by simp)).1)]
      simp
    | cons t2 ts2 =>
      rw [intercalate_cons₂, List.append_assoc,
        splitTokensAux_run _ t [] (fun c hc => (hgood t (by simp)).2 c hc)]
      rw [List.singleton_append, splitTokensAux, if_pos (by decide)]
      rw [if_neg (by simpa using (hgood t (by simp)).1)]
      rw [ih (fun u hu => hgood u (by simp [hu]))]
      simp

theorem map_normChar_intercalate (ts : List (List Char)) :
    (List.intercalate [' '] ts).map normChar
      = List.intercalate [' '] (ts.map (fun t => t.map normChar)) := by
  induction ts with
  | nil => simp [intercalate_nil]
  | cons t ts ih =>
    cases ts with
    | nil => simp [intercalate_single]
    | cons t2 ts2 =>
      rw [intercalate_cons₂, List.map_append, List.map_append, ih]
      conv_rhs => rw [List.map_cons, List.map_cons, intercalate_cons₂, List.append_assoc]
      simp [show normChar ' ' = ' ' from by decide]

/-- C10 helper: the characters of every token are fixed by `normChar`. -/
theorem map_normChar_token {t : List Char} (h : ∀ c ∈ t, isTokenChar c = true) :
    t.map normChar = t := by
  induction t with
  | nil => rfl
  | cons c t ih =>
    rw [List.map_cons, normChar_fixed (h c (by simp)), ih (fun d hd => h d (by simp [hd]))]

/-- C10: every term output by the tokenizer (for any input, including a
missing one) is non-empty and consists solely of lowercase ASCII
letters, ASCII digits and Hangul syllables; in particular it never
contains whitespace or uppercase letters. -/
theorem claim_C10 (o : Option (List Char)) (t : List Char) (ht : t ∈ tokenizeKoreanJs o) :
    t ≠ [] ∧ ∀ c ∈ t, isTokenChar c = true := by
  have h := tokenize_tokens_good (o.getD []) t ht
  exact ⟨h.1, fun c hc => (h.2 c hc).2⟩

theorem claim_C10_witness :
    (['a', 'b'] ∈ tokenizeKoreanJs (some "Ab 1!".data)) ∧
      (['a', 'b'] ≠ [] ∧ ∀ c ∈ ['a', 'b'], isTokenChar c = true) := by
  refine ⟨by decide, claim_C10 (some "Ab 1!".data) ['a', 'b'] (by decide)⟩

/-- C7: on any input whose characters already lie in the normalized
character set, re-tokenizing the terms rejoined with single spaces
reproduces the term sequence exactly. -/
theorem claim_C7 (x : List Char)
    (hx : ∀ c ∈ x, isTokenChar c = true ∨ isJsSpace c = true) :
    tokenizeKorean (List.intercalate [' '] (tokenizeKorean x)) = tokenizeKorean x := by
  have hgood := tokenize_tokens_good x
  conv_lhs => rw [tokenizeKorean]
  rw [map_normChar_intercalate]
  have hfix : (tokenizeKorean x).map (fun t => t.map normChar) = tokenizeKorean x := by
    have : ∀ t ∈ tokenizeKorean x, t.map normChar = id t := by
      intro t ht
      exact map_normChar_token (fun c hc => ((hgood t ht).2 c hc).2)
    rw [List.map_congr_left this, List.map_id]
  rw [hfix]
  exact splitTokens_intercalate (tokenizeKorean x)
    (fun t ht => ⟨(hgood t ht).1, fun c hc => ((hgood t ht).2 c hc).1⟩)

theorem claim_C7_witness :
    (∀ c ∈ "입덧 20주".data, isTokenChar c = true ∨ isJsSpace c = true) ∧
      tokenizeKorean (List.intercalate [' '] (tokenizeKorean "입덧 20주".data))
        = tokenizeKorean "입덧 20주".data :=
  ⟨by decide, claim_C7 "입덧 20주".data (by decide)⟩

/-! ## Lemmas: whitespace collapsing, trimming, chunking -/

theorem collapseWsAux_length_le (s : List Char) :
    ∀ b : Bool, (collapseWsAux s b).length ≤ s.length := by
  induction s with
  | nil => intro b; simp [collapseWsAux]
  | cons c s ih =>
    intro b
    rw [collapseWsAux]
    by_cases hc : isJsSpace c = true
    · rw [if_pos hc]
      cases b with
      | true => simpa using Nat.le_succ_of_le (ih true)
      | false => simpa using ih true
    · rw [if_neg hc]
      simpa using ih false

/-- A whitespace-collapse fixpoint has no two adjacent whitespace
characters. -/
theorem collapse_fix_chain (s : List Char) :
    ∀ b : Bool, collapseWsAux s b = s →
      s.Chain' (fun a c => ¬(isJsSpace a = true ∧ isJsSpace c = true)) := by
  induction s with
  | nil => intro _ _; simp
  | cons c s ih =>
    intro b h
    rw [collapseWsAux] at h
    by_cases hc : isJsSpace c = true
    · rw [if_pos hc] at h
      cases b with
      | true =>
        rw [if_pos rfl] at h
        exfalso
        have hle := collapseWsAux_length_le s true
        rw [h] at hle
        simp at hle
      | false =>
        rw [if_neg (by simp)] at h
        obtain ⟨hc', htail⟩ := List.cons_eq_cons.mp h
        cases s with
        | nil => simp
        | cons d s' =>
          rw [collapseWsAux] at htail
          by_cases hd : isJsSpace d = true
          · rw [if_pos hd, if_pos rfl] at htail
            exfalso
            have hle := collapseWsAux_length_le s' true
            rw [htail] at hle
            simp at hle
          · rw [if_neg hd] at htail
            obtain ⟨_, htail'⟩ := List.cons_eq_cons.mp htail
            refine List.chain'_cons.mpr ⟨fun hcontra => hd hcontra.2, ?_⟩
            exact ih false (by rw [collapseWsAux, if_neg hd, htail'])
    · rw [if_neg hc] at h
      obtain ⟨_, htail⟩ := List.cons_eq_cons.mp h
      cases s with
      | nil => simp
      | cons d s' =>
        refine List.chain'_cons.mpr ⟨fun hcontra => hc hcontra.1, ?_⟩
        exact ih false htail

/-- In a list with no two adjacent whitespace characters, `dropWhile`
on whitespace removes at most one character. -/
theorem chain_dropWhile_length (l : List Char)
    (h : l.Chain' (fun a c => ¬(isJsSpace a = true ∧ isJsSpace c = true))) :
    l.length ≤ (l.dropWhile isJsSpace).length + 1 := by
  cases l with
  | nil => simp
  | cons c l' =>
    by_cases hc : isJsSpace c = true
    · rw [List.dropWhile_cons, if_pos hc]
      cases l' with
      | nil => simp
      | cons d l'' =>
        have hd : isJsSpace d = false := by
          have hpair := (List.chain'_cons.mp h).1
          rcases Bool.eq_false_or_eq_true (isJsSpace d) with h' | h'
          · exact absurd ⟨hc, h'⟩ hpair
          · exact h'
        rw [List.dropWhile_cons, if_neg (by simp [hd])]
        simp
    · rw [List.dropWhile_cons, if_neg hc]
      exact Nat.le_succ _

theorem chain_dropWhile_preserve {R : Char → Char → Prop} (p : Char → Bool) (l : List Char)
    (h : l.Chain' R) : (l.dropWhile p).Chain' R := by
  induction l with
  | nil => exact h
  | cons c l ih =>
    by_cases hc : p c = true
    · rw [List.dropWhile_cons, if_pos hc]
      exact ih h.tail
    · rw [List.dropWhile_cons, if_neg hc]
      exact h

theorem chain_noWW_reverse (l : List Char)
    (h : l.Chain' (fun a c => ¬(isJsSpace a = true ∧ isJsSpace c = true))) :
    l.reverse.Chain' (fun a c => ¬(isJsSpace a = true ∧ isJsSpace c = true)) := by
  rw [List.chain'_reverse]
  exact h.imp (fun a c hac => fun hx => hac ⟨hx.2, hx.1⟩)

/-- A whitespace-collapse fixpoint loses at most two characters to
trimming. -/
theorem trim_length_of_collapse_fix {s : List Char} (h : collapseWs s = s) :
    s.length ≤ (trimWs s).length + 2 := by
  have hch : s.Chain' (fun a c => ¬(isJsSpace a = true ∧ isJsSpace c = true)) :=
    collapse_fix_chain s false h
  have h1 : s.length ≤ (s.dropWhile isJsSpace).length + 1 := chain_dropWhile_length s hch
  have hch2 := chain_noWW_reverse _ (chain_dropWhile_preserve isJsSpace s hch)
  have h2 : (s.dropWhile isJsSpace).reverse.length
      ≤ ((s.dropWhile isJsSpace).reverse.dropWhile isJsSpace).length + 1 :=
    chain_dropWhile_length _ hch2
  unfold trimWs
  rw [List.length_reverse]
  rw [List.length_reverse] at h2
  omega

theorem trimWs_nil : trimWs [] = [] := rfl

/-- The chunk loop on a single over-long segment: the segment is flushed
whole at the end. -/
theorem chunkLoop_single_overflow (maxLen overlap : Nat) (seg : List Char)
    (hlen : maxLen < seg.length) (hne : trimWs seg ≠ []) :
    chunkLoop maxLen overlap [seg] [] = [trimWs seg] := by
  rw [chunkLoop, if_pos (by simpa using hlen)]
  rw [if_pos trimWs_nil]
  rw [(by simp : ([] : List Char).drop (List.length ([] : List Char) - overlap) ++ seg = seg)]
  rw [chunkLoop, if_neg hne]
  simp

/-- C8: a document that is a single 3000-character sentence (already
whitespace-collapsed, and yielding a single segment under the chunker's
sentence splitter) is chunked into exactly one passage equal to the
trimmed input, even though its length exceeds the default `maxLen` of
420 — an over-long segment is emitted whole, with no truncation. -/
theorem claim_C8 (t : List Char) (hfix : collapseWs t = t)
    (hsingle : splitSents t = [t]) (hlen : t.length = 3000) :
    chunkTextDefault t = [trimWs t] ∧ 420 < (trimWs t).length := by
  have htrim : t.length ≤ (trimWs t).length + 2 := trim_length_of_collapse_fix hfix
  have hbig : 420 < (trimWs t).length := by omega
  have hne : trimWs t ≠ [] := by
    intro hcon
    rw [hcon] at hbig
    simp at hbig
  refine ⟨?_, hbig⟩
  unfold chunkTextDefault chunkText
  rw [hfix, hsingle]
  exact chunkLoop_single_overflow 420 60 t (by omega) hne

theorem collapse_id_of_nonws {s : List Char} (h : ∀ c ∈ s, isJsSpace c = false) :
    ∀ b, collapseWsAux s b = s := by
  induction s with
  | nil => intro b; rfl
  | cons c s ih =>
    intro b
    rw [collapseWsAux, if_neg (by simp [h c (by simp)])]
    rw [ih (fun d hd => h d (by simp [hd])) false]

theorem splitSentsAux_no_boundary :
    ∀ (s acc : List Char) (p1 p2 : Option Char),
      (∀ c ∈ s, isSentEnd c = false ∧ isJsSpace c = false) →
      (∀ a, p1 = some a → isSentEnd a = false ∧ isJsSpace a = false) →
      splitSentsAux s acc p1 p2 = [acc.reverse ++ s] := by
  intro s
  induction s with
  | nil => intro acc p1 p2 _ _; simp [splitSentsAux]
  | cons c s ih =>
    intro acc p1 p2 hs hp
    have hb : chunkBoundary p1 p2 = false := by
      cases p1 with
      | none => cases p2 <;> rfl
      | some a =>
        have ha := hp a rfl
        cases p2 with
        | none => simpa [chunkBoundary] using ha.1
        | some b => simp [chunkBoundary, ha.1, ha.2]
    rw [splitSentsAux, if_neg (by simp [hb])]
    rw [ih (c :: acc) (some c) p1 (fun d hd => hs d (by simp [hd]))
      (fun a ha => by injection ha with ha; exact ha ▸ hs c (by simp))]
    simp

theorem splitSents_single_of_plain {s : List Char}
    (h : ∀ c ∈ s, isSentEnd c = false ∧ isJsSpace c = false) :
    splitSents s = [s] := by
  unfold splitSents
  rw [splitSentsAux_no_boundary s [] none none h (fun a ha => by simp at ha)]
  simp

theorem claim_C8_witness :
    (collapseWs (List.replicate 3000 'a') = List.replicate 3000 'a' ∧
     splitSents (List.replicate 3000 'a') = [List.replicate 3000 'a'] ∧
     (List.replicate 3000 'a').length = 3000) ∧
    (chunkTextDefault (List.replicate 3000 'a') = [trimWs (List.replicate 3000 'a')] ∧
     420 < (trimWs (List.replicate 3000 'a')).length) := by
  have hchars : ∀ c ∈ List.replicate 3000 'a', c = 'a' :=
    fun c hc => List.eq_of_mem_replicate hc
  have hfix : collapseWs (List.replicate 3000 'a') = List.replicate 3000 'a' :=
    collapse_id_of_nonws (fun c hc => by rw [hchars c hc]; decide) false
  have hsingle : splitSents (List.replicate 3000 'a') = [List.replicate 3000 'a'] :=
    splitSents_single_of_plain (fun c hc => by rw [hchars c hc]; exact ⟨by decide, by decide⟩)
  have hlen : (List.replicate 3000 'a').length = 3000 := List.length_replicate 3000 'a'
  exact ⟨⟨hfix, hsingle, hlen⟩, claim_C8 _ hfix hsingle hlen⟩

/-! ## Lemmas: context budgeter (`/api/ask`) -/

theorem limitAux_sum_le (cs : List CtxIn) :
    ∀ acc : Nat, acc ≤ 8000 → acc + sumItemLens (limitAux cs acc) ≤ 8000 := by
  induction cs with
  | nil => intro acc h; simpa [limitAux, sumItemLens] using h
  | cons c cs ih =>
    intro acc h
    rw [limitAux]
    by_cases hover : 8000 < acc + itemLenJs (normItem c)
    · rw [if_pos hover]
      simpa [sumItemLens] using h
    · rw [if_neg hover]
      have := ih (acc + itemLenJs (normItem c)) (by omega)
      simp only [sumItemLens, List.map_cons, List.sum_cons] at this ⊢
      omega

theorem limitAux_take (cs : List CtxIn) :
    ∀ acc : Nat, limitAux cs acc = (cs.map normItem).take (limitAux cs acc).length := by
  induction cs with
  | nil => intro acc; simp [limitAux]
  | cons c cs ih =>
    intro acc
    rw [limitAux]
    by_cases hover : 8000 < acc + itemLenJs (normItem c)
    · rw [if_pos hover]; simp
    · rw [if_neg hover]
      simp only [List.map_cons, List.length_cons, List.take_succ_cons]
      rw [← ih (acc + itemLenJs (normItem c))]

theorem limitAux_length_le (cs : List CtxIn) :
    ∀ acc : Nat, (limitAux cs acc).length ≤ cs.length := by
  induction cs with
  | nil => intro acc; simp [limitAux]
  | cons c cs ih =>
    intro acc
    rw [limitAux]
    by_cases hover : 8000 < acc + itemLenJs (normItem c)
    · rw [if_pos hover]; simp
    · rw [if_neg hover]
      simpa using ih (acc + itemLenJs (normItem c))

theorem limitAux_stop (cs : List CtxIn) :
    ∀ acc : Nat, ∀ c' ∈ (cs.drop (limitAux cs acc).length).head?,
      8000 < acc + sumItemLens (limitAux cs acc) + itemLenJs (normItem c') := by
  induction cs with
  | nil => intro acc c' hc'; simp [limitAux] at hc'
  | cons c cs ih =>
    intro acc c' hc'
    by_cases hover : 8000 < acc + itemLenJs (normItem c)
    · rw [limitAux, if_pos hover] at hc' ⊢
      simp only [List.length_nil, List.drop_zero, List.head?_cons, Option.mem_def,
        Option.some.injEq] at hc'
      subst hc'
      simpa [sumItemLens] using hover
    · rw [limitAux, if_neg hover] at hc' ⊢
      simp only [List.length_cons, List.drop_succ_cons] at hc'
      have := ih (acc + itemLenJs (normItem c)) c' hc'
      simp only [sumItemLens, List.map_cons, List.sum_cons] at this ⊢
      omega

/-- C1: the budgeter output of the `/api/ask` handler (the `limited`
loop with `perItemCharCap = 1500`, `totalByteCap = 8000`): the
accumulated serialized size never exceeds 8000; the item count never
exceeds the input count (no `maxCount` exists at this stage, so the
count ceiling is the input length); every accepted item is a whole
normalized input item (never partially included); and when an item was
dropped, accepting the first dropped item would have exceeded 8000. -/
theorem claim_C1 (cs : List CtxIn) :
    sumItemLens (limitContexts cs) ≤ 8000 ∧
    (limitContexts cs).length ≤ cs.length ∧
    (∀ it ∈ limitContexts cs, ∃ c ∈ cs, it = normItem c) ∧
    (∀ c' ∈ (cs.drop (limitContexts cs).length).head?,
      8000 < sumItemLens (limitContexts cs) + itemLenJs (normItem c')) := by
  refine ⟨by simpa using limitAux_sum_le cs 0 (by omega), limitAux_length_le cs 0, ?_, ?_⟩
  · intro it hit
    have htake := limitAux_take cs 0
    rw [limitContexts] at hit
    rw [htake] at hit
    have hmem : it ∈ cs.map normItem := List.mem_of_mem_take hit
    rcases List.mem_map.mp hmem with ⟨c, hc, rfl⟩
    exact ⟨c, hc, rfl⟩
  · intro c' hc'
    simpa using limitAux_stop cs 0 c' hc'

theorem jsonEscapeChar_u : jsonEscapeChar 'u' = ['u'] := by decide

theorem flatMap_escape_replicate (n : Nat) :
    (List.replicate n 'u').flatMap jsonEscapeChar = List.replicate n 'u' := by
  induction n with
  | zero => rfl
  | succ n ih =>
    rw [List.replicate_succ, List.flatMap_cons, jsonEscapeChar_u, ih]
    rfl

theorem utf16Len_replicate_u (n : Nat) : utf16Len (List.replicate n 'u') = n := by
  induction n with
  | zero => rfl
  | succ n ih =>
    rw [List.replicate_succ]
    simp only [utf16Len, List.map_cons, List.sum_cons] at ih ⊢
    rw [ih, (by decide : utf16Width 'u' = 1)]
    omega

theorem utf16Len_append (a b : List Char) :
    utf16Len (a ++ b) = utf16Len a + utf16Len b := by
  simp [utf16Len]

theorem itemLenJs_bigUrl :
    itemLenJs (normItem ⟨none, some (List.replicate 8000 'u'), none⟩) = 8031 := by
  have hn : normItem ⟨none, some (List.replicate 8000 'u'), none⟩
      = ⟨[], List.replicate 8000 'u', []⟩ := rfl
  rw [hn]
  show utf16Len (jsonOfItem ⟨[], List.replicate 8000 'u', []⟩) = 8031
  rw [jsonOfItem]
  simp only [jsonQuote, List.flatMap_nil, flatMap_escape_replicate]
  rw [utf16Len_append, utf16Len_append, utf16Len_append, utf16Len_append, utf16Len_append]
  have h1 : utf16Len ('"' :: (List.replicate 8000 'u' ++ ['"'])) = 8002 := by
    show (List.map utf16Width ('"' :: (List.replicate 8000 'u' ++ ['"']))).sum = 8002
    rw [List.map_cons, List.sum_cons]
    rw [show (List.map utf16Width (List.replicate 8000 'u' ++ ['"'])).sum
        = utf16Len (List.replicate 8000 'u' ++ ['"']) from rfl]
    rw [utf16Len_append, utf16Len_replicate_u]
    decide
  rw [h1]
  decide

theorem limitContexts_bigUrl :
    limitContexts [⟨none, some (List.replicate 8000 'u'), none⟩] = [] := by
  rw [limitContexts, limitAux]
  rw [if_pos (by rw [itemLenJs_bigUrl]; omega)]

theorem claim_C1_witness :
    ((⟨none, some (List.replicate 8000 'u'), none⟩ : CtxIn) ∈
        (([⟨none, some (List.replicate 8000 'u'), none⟩] : List CtxIn).drop
          (limitContexts [⟨none, some (List.replicate 8000 'u'), none⟩]).length).head?) ∧
      8000 < sumItemLens (limitContexts [⟨none, some (List.replicate 8000 'u'), none⟩]) +
        itemLenJs (normItem ⟨none, some (List.replicate 8000 'u'), none⟩) := by
  have hmem : (⟨none, some (List.replicate 8000 'u'), none⟩ : CtxIn) ∈
      (([⟨none, some (List.replicate 8000 'u'), none⟩] : List CtxIn).drop
        (limitContexts [⟨none, some (List.replicate 8000 'u'), none⟩]).length).head? := by
    rw [limitContexts_bigUrl]
    rfl
  exact ⟨hmem, (claim_C1 [⟨none, some (List.replicate 8000 'u'), none⟩]).2.2.2 _ hmem⟩

/-- C4: the budgeter's output is a take-k of the normalized ranked input:
zero or more trailing items dropped, nothing reordered, nothing skipped. -/
theorem claim_C4 (cs : List CtxIn) :
    ∃ k, k ≤ cs.length ∧ limitContexts cs = (cs.map normItem).take k := by
  exact ⟨(limitContexts cs).length, limitAux_length_le cs 0, limitAux_take cs 0⟩

/-! ## Lemmas: request gating (`/api/ask`) and the `handleAsk` fallback -/

/-- C6 (amended): the handler's dispositions, characterized.  The
effective method is `req.method` defaulted — when the method is absent
or empty, a request with a body is treated as POST (GET otherwise); a
non-POST effective method yields 405 before anything else; with POST, a
falsy `question` or a non-array `contexts` yields 400 before the
budgeting loop and the generation call (`proceed` is the only outcome
that issues one); and no other disposition exists. -/
theorem claim_C6 (r : AskReq) :
    (askHandler r = AskOutcome.status405 ↔ effMethod r ≠ "POST".data) ∧
    (askHandler r = AskOutcome.status400 ↔ (effMethod r = "POST".data ∧
      (qFalsy (r.body.getD ⟨none, CtxField.missing⟩).question = true ∨
        (r.body.getD ⟨none, CtxField.missing⟩).contexts.isArr = false))) ∧
    ((∃ l, askHandler r = AskOutcome.proceed l) ↔ (effMethod r = "POST".data ∧
      qFalsy (r.body.getD ⟨none, CtxField.missing⟩).question = false ∧
      (r.body.getD ⟨none, CtxField.missing⟩).contexts.isArr = true)) ∧
    (askHandler r = AskOutcome.status405 ∨ askHandler r = AskOutcome.status400 ∨
      askHandler r = AskOutcome.proceed
        (limitContexts (r.body.getD ⟨none, CtxField.missing⟩).contexts.list)) := by
  unfold askHandler
  by_cases hm : effMethod r = "POST".data
  · rw [if_neg (by simp [hm])]
    by_cases hq : (qFalsy (r.body.getD ⟨none, CtxField.missing⟩).question ||
        !(r.body.getD ⟨none, CtxField.missing⟩).contexts.isArr) = true
    · rw [if_pos hq]
      rcases Bool.or_eq_true_iff.mp hq with hq' | hq'
      · exact ⟨by simp [hm], by simp [hm, hq'], by simp [hq'], by simp⟩
      · refine ⟨by simp [hm], by simp [hm]; right; simpa using hq', ?_, by simp⟩
        constructor
        · rintro ⟨l, hl⟩; exact absurd hl (by simp)
        · rintro ⟨_, _, harr⟩
          rw [harr] at hq'
          simp at hq'
    · rw [if_neg hq]
      rw [Bool.or_eq_true_iff] at hq
      push_neg at hq
      have hq1 : qFalsy (r.body.getD ⟨none, CtxField.missing⟩).question = false := by
        rcases Bool.eq_false_or_eq_true
            (qFalsy (r.body.getD ⟨none, CtxField.missing⟩).question) with h | h
        · exact absurd h hq.1
        · exact h
      have hq2 : (r.body.getD ⟨none, CtxField.missing⟩).contexts.isArr = true := by
        rcases Bool.eq_false_or_eq_true
            ((r.body.getD ⟨none, CtxField.missing⟩).contexts.isArr) with h | h
        · exact h
        · exfalso; exact hq.2 (by simp [h])
      exact ⟨by simp [hm], by simp [hq1, hq2], by simp [hm, hq1, hq2], by simp⟩
  · rw [if_pos (by simpa using hm)]
    refine ⟨by simp [hm], by simp [hm], ?_, by simp⟩
    constructor
    · rintro ⟨l, hl⟩; exact absurd hl (by simp)
    · rintro ⟨hm', _⟩; exact absurd hm' hm

/-- C6 counterexample to the claim as stated: a request with *no* method
but with a valid body is not rejected with 405 — the handler defaults the
missing method to POST and proceeds. -/
theorem claim_C6_counterexample :
    (⟨none, some ⟨some ['q'], CtxField.arr []⟩⟩ : AskReq).method ≠ some "POST".data ∧
      askHandler ⟨none, some ⟨some ['q'], CtxField.arr []⟩⟩ ≠ AskOutcome.status405 := by
  decide

theorem fallbackMessage_eq (ctxs : List TopCtx) :
    fallbackMessage ctxs =
      (if ctxs.map excerptLine = [] then "관련 내용을 찾지 못했습니다.".data
       else "임시 발췌 요약:\n".data ++
         List.intercalate "\n".data (ctxs.map excerptLine)) ++
      (if (ctxs.filter (fun c => !decide (c.url = []))).map (fun c => c.url) = [] then []
       else "\n\n관련 링크:\n".data ++ List.intercalate "\n".data
         (numberLines (jsSetList
           ((ctxs.filter (fun c => !decide (c.url = []))).map (fun c => c.url))))) := rfl

theorem fallbackMessage_ne_nil (ctxs : List TopCtx) : fallbackMessage ctxs ≠ [] := by
  rw [fallbackMessage_eq]
  intro hcon
  rcases List.append_eq_nil.mp hcon with ⟨h1, _⟩
  by_cases h : ctxs.map excerptLine = []
  · rw [if_pos h] at h1
    simp at h1
  · rw [if_neg h] at h1
    rcases List.append_eq_nil.mp h1 with ⟨h2, _⟩
    simp at h2

/-- C5 (amended): whenever the generation call fails (network error or
non-success HTTP response), `handleAsk` displays the locally computed
excerpt fallback — the first 200 characters of each top context plus a
deduplicated link list — which is never empty, so the user is not left
without an answer. -/
theorem claim_C5 (ctxs : List TopCtx) (g : GenOutcome) (hg : g.failed = true) :
    handleAskReply ctxs g = fallbackMessage ctxs ∧ fallbackMessage ctxs ≠ [] := by
  cases g with
  | ok a => simp [GenOutcome.failed] at hg
  | httpError m => exact ⟨rfl, fallbackMessage_ne_nil ctxs⟩
  | networkError => exact ⟨rfl, fallbackMessage_ne_nil ctxs⟩

theorem claim_C5_witness :
    GenOutcome.networkError.failed = true ∧
      (handleAskReply [⟨"입덧은 20주 이전에 완화됩니다.".data, "https://e.x/a".data, []⟩]
          GenOutcome.networkError
        = fallbackMessage [⟨"입덧은 20주 이전에 완화됩니다.".data, "https://e.x/a".data, []⟩] ∧
       fallbackMessage [⟨"입덧은 20주 이전에 완화됩니다.".data, "https://e.x/a".data, []⟩] ≠ []) :=
  ⟨by decide, claim_C5 _ GenOutcome.networkError (by decide)⟩

/-- C5 counterexample to the claim as stated: on generation failure the
displayed text is the excerpt fallback of part_000, not the
extractive-summarizer display of §4.6 (the src/App.jsx path) — here the
two differ on the same top passage and question. -/
theorem claim_C5_counterexample :
    GenOutcome.networkError.failed = true ∧
      handleAskReply [⟨"바나나 좋아. 입덧 완화 방법이다.".data, [], []⟩] GenOutcome.networkError ≠
        extractiveDisplay "입덧".data [⟨"바나나 좋아. 입덧 완화 방법이다.".data, [], []⟩] := by
  decide

/-! ## Lemmas: TF-IDF scorer -/

theorem qWeightEntries_eq (docs : List Passage) (query : List Char) :
    qWeightEntries docs query = (jsSetList (tokenizeKorean query)).map
      (fun t => (t, ((((tokenizeKorean query).count t : ℕ) : ℝ) /
        ((jsOr (tokenizeKorean query).length 1 : ℕ) : ℝ)) * idf docs t)) := by
  have hstart : qWeightEntries docs query = (tokenizeKorean query).foldl
      (fun m t => jsMapSet m t
        (((getD0 (tfMapOf (tokenizeKorean query)) t : ℝ) /
          ((jsOr (tokenizeKorean query).length 1 : ℕ) : ℝ)) * idf docs t)) [] := rfl
  have hfold := foldl_setvalfun (fun t =>
      ((getD0 (tfMapOf (tokenizeKorean query)) t : ℝ) /
        ((jsOr (tokenizeKorean query).length 1 : ℕ) : ℝ)) * idf docs t)
    (tokenizeKorean query) [] (by simp)
  rw [hstart, hfold]
  simp only [List.map_nil, List.nil_append]
  apply List.map_congr_left
  intro t _
  have hcount : getD0 (tfMapOf (tokenizeKorean query)) t = (tokenizeKorean query).count t := by
    unfold tfMapOf
    rw [getD0_bumpFold]
    simp [getD0, jsMapGet]
  rw [hcount]

theorem getD0_dfMap (docs : List Passage) (t : List Char) :
    getD0 (dfMap docs) t = specDf docs t := by
  suffices h : ∀ m : List (List Char × Nat),
      getD0 (docs.foldl (fun m d => bumpFold m (jsSetList (tokenizeKorean d.text))) m) t
        = getD0 m t + specDf docs t by
    have := h []
    rw [dfMap, this]
    simp [getD0, jsMapGet]
  induction docs with
  | nil => intro m; simp [specDf]
  | cons d docs ih =>
    intro m
    rw [List.foldl_cons, ih, getD0_bumpFold, count_jsSetList]
    have hspec : specDf (d :: docs) t
        = (if t ∈ tokenizeKorean d.text then 1 else 0) + specDf docs t := by
      unfold specDf
      rw [List.countP_cons]
      by_cases h : t ∈ tokenizeKorean d.text
      · simp [h]; omega
      · simp [h]
    rw [hspec]
    by_cases h : t ∈ tokenizeKorean d.text
    · rw [if_pos h]; omega
    · rw [if_neg h]; omega

theorem idf_eq_specIdf (docs : List Passage) (t : List Char) :
    idf docs t = specIdf docs t := by
  unfold idf specIdf corpusN
  rw [getD0_dfMap]

theorem docScoreSum_eq_spec (docs : List Passage) (query : List Char) (d : Passage) :
    docScoreSum docs query (docStatsOf d) = specScore docs query d := by
  have hlhs : docScoreSum docs query (docStatsOf d) = ((qWeightEntries docs query).map (fun p =>
      p.2 * ((getD0 (tfMapOf (tokenizeKorean d.text)) p.1 : ℝ) /
        ((jsOr (tokenizeKorean d.text).length 1 : ℕ) : ℝ)) * idf docs p.1)).sum := rfl
  have hrhs : specScore docs query d = ((tokenizeKorean query).dedup.map (fun t =>
      (((((tokenizeKorean query).count t : ℕ) : ℝ) /
          ((jsOr (tokenizeKorean query).length 1 : ℕ) : ℝ)) * specIdf docs t) *
        ((((tokenizeKorean d.text).count t : ℕ) : ℝ) /
          ((jsOr (tokenizeKorean d.text).length 1 : ℕ) : ℝ)) * specIdf docs t)).sum := rfl
  rw [hlhs, hrhs, qWeightEntries_eq, List.map_map]
  have hcongr : ∀ t ∈ jsSetList (tokenizeKorean query),
      ((fun p => p.2 * ((getD0 (tfMapOf (tokenizeKorean d.text)) p.1 : ℝ) /
          ((jsOr (tokenizeKorean d.text).length 1 : ℕ) : ℝ)) * idf docs p.1) ∘
        (fun t => (t, ((((tokenizeKorean query).count t : ℕ) : ℝ) /
          ((jsOr (tokenizeKorean query).length 1 : ℕ) : ℝ)) * idf docs t))) t
        = (fun t =>
            (((((tokenizeKorean query).count t : ℕ) : ℝ) /
                ((jsOr (tokenizeKorean query).length 1 : ℕ) : ℝ)) * specIdf docs t) *
              ((((tokenizeKorean d.text).count t : ℕ) : ℝ) /
                ((jsOr (tokenizeKorean d.text).length 1 : ℕ) : ℝ)) * specIdf docs t) t := by
    intro t _
    simp only [Function.comp]
    have hcount : getD0 (tfMapOf (tokenizeKorean d.text)) t = (tokenizeKorean d.text).count t := by
      unfold tfMapOf
      rw [getD0_bumpFold]
      simp [getD0, jsMapGet]
    rw [hcount, idf_eq_specIdf]
  rw [List.map_congr_left hcongr]
  exact ((jsSetList_perm_dedup (tokenizeKorean query)).map _).sum_eq

theorem jsMapGet_docTokens_general (docs : List Passage) :
    ∀ (m : List (List Char × DocStats)) (k : List Char),
      jsMapGet (docs.foldl (fun m d => jsMapSet m d.id (docStatsOf d)) m) k
        = match docs.reverse.find? (fun d => decide (d.id = k)) with
          | some d => some (docStatsOf d)
          | none => jsMapGet m k := by
  induction docs with
  | nil => intro m k; simp
  | cons d docs ih =>
    intro m k
    rw [List.foldl_cons, ih, List.reverse_cons, List.find?_append]
    cases hfind : docs.reverse.find? (fun d => decide (d.id = k)) with
    | some e => simp [hfind, Option.or]
    | none =>
      simp only [hfind, Option.none_or]
      rw [jsMapGet_set]
      by_cases hk : d.id = k
      · rw [if_pos (by simpa using hk.symm)]
        simp [List.find?, hk]
      · rw [if_neg (by simpa using fun hh : k = d.id => hk hh.symm)]
        simp [List.find?, hk]

theorem find?_id_of_nodup :
    ∀ (l : List Passage), (l.map Passage.id).Nodup → ∀ {d : Passage}, d ∈ l →
      l.find? (fun e => decide (e.id = d.id)) = some d := by
  intro l
  induction l with
  | nil => intro _ d hd; simp at hd
  | cons e l ih =>
    intro hnd d hd
    rw [List.map_cons] at hnd
    rcases List.nodup_cons.mp hnd with ⟨he, hl⟩
    by_cases heq : e.id = d.id
    · have hde : d = e := by
        rcases List.mem_cons.mp hd with rfl | hd'
        · rfl
        · exfalso
          exact he (heq ▸ List.mem_map.mpr ⟨d, hd', rfl⟩)
      rw [List.find?_cons_of_pos l (by simpa using heq), hde]
    · have hd' : d ∈ l := by
        rcases List.mem_cons.mp hd with rfl | hd'
        · exact absurd rfl heq
        · exact hd'
      rw [List.find?_cons_of_neg l (by simpa using heq)]
      exact ih hl hd'

theorem docTokensMap_get_of_nodup (docs : List Passage)
    (hnd : (docs.map Passage.id).Nodup) {d : Passage} (hd : d ∈ docs) :
    jsMapGet (docTokensMap docs) d.id = some (docStatsOf d) := by
  rw [docTokensMap, jsMapGet_docTokens_general]
  have hrev : (docs.reverse.map Passage.id).Nodup := by
    rw [List.map_reverse]
    exact List.nodup_reverse.mpr hnd
  rw [find?_id_of_nodup docs.reverse hrev (List.mem_reverse.mpr hd)]

theorem docTokensMap_get_isSome (docs : List Passage) {d : Passage} (hd : d ∈ docs) :
    (jsMapGet (docTokensMap docs) d.id).isSome = true := by
  rw [docTokensMap, jsMapGet_docTokens_general]
  cases hfind : docs.reverse.find? (fun e => decide (e.id = d.id)) with
  | some e => rfl
  | none =>
    exfalso
    have := List.find?_eq_none.mp hfind d (List.mem_reverse.mpr hd)
    simp at this

theorem scoreResultsRaw_map_id (docs : List Passage) (query : List Char) :
    (scoreResultsRaw docs query).map ScoredResult.id = docs.map Passage.id := by
  unfold scoreResultsRaw
  suffices h : ∀ L : List Passage, (∀ d ∈ L, (jsMapGet (docTokensMap docs) d.id).isSome = true) →
      ((L.filterMap (fun d => (jsMapGet (docTokensMap docs) d.id).map (fun dt =>
        (⟨d.id, docScoreSum docs query dt, d.meta⟩ : ScoredResult)))).map ScoredResult.id)
        = L.map Passage.id by
    exact h docs (fun d hd => docTokensMap_get_isSome docs hd)
  intro L
  induction L with
  | nil => intro _; rfl
  | cons d L ih =>
    intro hsome
    rcases Option.isSome_iff_exists.mp (hsome d (by simp)) with ⟨dt, hdt⟩
    rw [List.filterMap_cons_some (by rw [hdt]; rfl)]
    rw [List.map_cons, List.map_cons, ih (fun e he => hsome e (by simp [he]))]

/-- C9: the scorer returns exactly one result per indexed passage — the
multiset of returned ids is exactly the multiset of passage ids (nothing
omitted, nothing duplicated) — and on an empty passage set it returns the
empty sequence (and, being a total function, raises no exception). -/
theorem claim_C9 (docs : List Passage) (query : List Char) :
    ((score docs query).map ScoredResult.id).Perm (docs.map Passage.id) ∧
      score ([] : List Passage) query = [] := by
  constructor
  · have hperm : (score docs query).Perm (scoreResultsRaw docs query) :=
      List.perm_insertionSort _ _
    have := hperm.map ScoredResult.id
    rwa [scoreResultsRaw_map_id] at this
  · rfl

theorem scoreResultsRaw_eq_of_nodup (docs : List Passage) (query : List Char)
    (hnd : (docs.map Passage.id).Nodup) :
    scoreResultsRaw docs query
      = docs.map (fun d => (⟨d.id, specScore docs query d, d.meta⟩ : ScoredResult)) := by
  unfold scoreResultsRaw
  suffices h : ∀ L : List Passage, (∀ d ∈ L, d ∈ docs) →
      L.filterMap (fun d => (jsMapGet (docTokensMap docs) d.id).map (fun dt =>
        (⟨d.id, docScoreSum docs query dt, d.meta⟩ : ScoredResult)))
        = L.map (fun d => (⟨d.id, specScore docs query d, d.meta⟩ : ScoredResult)) by
    exact h docs (fun d hd => hd)
  intro L
  induction L with
  | nil => intro _; rfl
  | cons d L ih =>
    intro hsub
    rw [List.filterMap_cons_some
      (by rw [docTokensMap_get_of_nodup docs hnd (hsub d (by simp))]; rfl)]
    simp only [docScoreSum_eq_spec]
    rw [List.map_cons, ih (fun e he => hsub e (by simp [he]))]

/-- C2 (amended: the passage ids are pairwise distinct, as the data
model's derived ids provide): the scorer's output is, up to the sorting
permutation, exactly one result per passage carrying the specified
score `Σ_t qw(t) * (tf_d(t)/len_d) * idf(t)` over distinct query terms
(`idf(t) = ln((N+1)/(df(t)+1)) + 1`, `qw(t) = (qtf(t)/qLen) * idf(t)`,
`N`, `qLen`, `len_d` floored at 1), and the output is sorted by score
descending. -/
theorem claim_C2 (docs : List Passage) (query : List Char)
    (hnd : (docs.map Passage.id).Nodup) :
    (score docs query).Perm
      (docs.map (fun d => (⟨d.id, specScore docs query d, d.meta⟩ : ScoredResult))) ∧
      List.Sorted scoreDesc (score docs query) := by
  constructor
  · have hperm : (score docs query).Perm (scoreResultsRaw docs query) :=
      List.perm_insertionSort _ _
    rwa [scoreResultsRaw_eq_of_nodup docs query hnd] at hperm
  · exact List.sorted_insertionSort scoreDesc _

theorem claim_C2_witness :
    ((([⟨['a'], "가 나".data, ⟨[], [], [], 0⟩⟩, ⟨['b'], "나".data, ⟨[], [], [], 0⟩⟩] :
        List Passage).map Passage.id).Nodup) ∧
    ((score [⟨['a'], "가 나".data, ⟨[], [], [], 0⟩⟩, ⟨['b'], "나".data, ⟨[], [], [], 0⟩⟩]
        "가".data).Perm
      (([⟨['a'], "가 나".data, ⟨[], [], [], 0⟩⟩, ⟨['b'], "나".data, ⟨[], [], [], 0⟩⟩] :
        List Passage).map (fun d =>
        (⟨d.id, specScore [⟨['a'], "가 나".data, ⟨[], [], [], 0⟩⟩,
          ⟨['b'], "나".data, ⟨[], [], [], 0⟩⟩] "가".data d, d.meta⟩ : ScoredResult))) ∧
      List.Sorted scoreDesc
        (score [⟨['a'], "가 나".data, ⟨[], [], [], 0⟩⟩, ⟨['b'], "나".data, ⟨[], [], [], 0⟩⟩]
          "가".data)) :=
  ⟨by decide, claim_C2 _ _ (by decide)⟩

theorem jsOr_one_pos (n : Nat) : 0 < jsOr n 1 := by
  unfold jsOr
  split <;> omega

theorem specDf_le (docs : List Passage) (t : List Char) :
    specDf docs t ≤ jsOr docs.length 1 := by
  have h : List.countP (fun d => decide (t ∈ tokenizeKorean d.text)) docs ≤ docs.length :=
    List.countP_le_length _
  unfold specDf jsOr
  split <;> omega

theorem one_le_specIdf (docs : List Passage) (t : List Char) : 1 ≤ specIdf docs t := by
  unfold specIdf
  have hpos : (0:ℝ) < (specDf docs t : ℝ) + 1 := by positivity
  have hle : ((specDf docs t : ℝ) + 1) ≤ ((jsOr docs.length 1 : ℕ) : ℝ) + 1 := by
    have h1 := specDf_le docs t
    have h2 := (Nat.cast_le (α := ℝ)).mpr h1
    linarith
  have hdiv : 1 ≤ (((jsOr docs.length 1 : ℕ) : ℝ) + 1) / ((specDf docs t : ℝ) + 1) :=
    (one_le_div hpos).mpr hle
  have hlog := Real.log_nonneg hdiv
  linarith

theorem specIdf_pos (docs : List Passage) (t : List Char) : 0 < specIdf docs t :=
  lt_of_lt_of_le one_pos (one_le_specIdf docs t)

theorem docScoreSum_zero (docs : List Passage) (query : List Char) (dt : DocStats)
    (h : ∀ t ∈ tokenizeKorean query, getD0 dt.tf t = 0) :
    docScoreSum docs query dt = 0 := by
  have heq : docScoreSum docs query dt = ((qWeightEntries docs query).map (fun p =>
      p.2 * ((getD0 dt.tf p.1 : ℝ) / ((jsOr dt.len 1 : ℕ) : ℝ)) * idf docs p.1)).sum := rfl
  rw [heq]
  apply List.sum_eq_zero
  intro x hx
  rcases List.mem_map.mp hx with ⟨p, hp, rfl⟩
  have hkey : p.1 ∈ tokenizeKorean query := by
    rw [qWeightEntries_eq] at hp
    rcases List.mem_map.mp hp with ⟨t, ht, rfl⟩
    exact mem_jsSetList.mp ht
  rw [h p.1 hkey]
  simp

theorem list_sum_pos_of_mem {l : List ℝ} (h0 : ∀ x ∈ l, 0 ≤ x) {x : ℝ} (hx : x ∈ l)
    (hp : 0 < x) : 0 < l.sum := by
  induction l with
  | nil => simp at hx
  | cons a l ih =>
    rw [List.sum_cons]
    rcases List.mem_cons.mp hx with rfl | hx'
    · have hs : 0 ≤ l.sum := List.sum_nonneg (fun y hy => h0 y (by simp [hy]))
      linarith
    · have ha : 0 ≤ a := h0 a (by simp)
      have hs := ih (fun y hy => h0 y (by simp [hy])) hx'
      linarith

theorem specScore_pos (docs : List Passage) (query : List Char) (d : Passage)
    (hq : tokenizeKorean query ≠ [])
    (hall : ∀ t ∈ tokenizeKorean query, t ∈ tokenizeKorean d.text) :
    0 < specScore docs query d := by
  have hspec : specScore docs query d = ((tokenizeKorean query).dedup.map (fun t =>
      (((((tokenizeKorean query).count t : ℕ) : ℝ) /
          ((jsOr (tokenizeKorean query).length 1 : ℕ) : ℝ)) * specIdf docs t) *
        ((((tokenizeKorean d.text).count t : ℕ) : ℝ) /
          ((jsOr (tokenizeKorean d.text).length 1 : ℕ) : ℝ)) * specIdf docs t)).sum := rfl
  rw [hspec]
  obtain ⟨t0, ht0⟩ := List.exists_mem_of_ne_nil _ hq
  have hqpos : (0:ℝ) < ((jsOr (tokenizeKorean query).length 1 : ℕ) : ℝ) := by
    exact_mod_cast jsOr_one_pos _
  have hdpos : (0:ℝ) < ((jsOr (tokenizeKorean d.text).length 1 : ℕ) : ℝ) := by
    exact_mod_cast jsOr_one_pos _
  refine list_sum_pos_of_mem ?_ (List.mem_map.mpr ⟨t0, List.mem_dedup.mpr ht0, rfl⟩) ?_
  · intro x hx
    rcases List.mem_map.mp hx with ⟨t, _, rfl⟩
    have h1 : (0:ℝ) ≤ (((tokenizeKorean query).count t : ℕ) : ℝ) /
        ((jsOr (tokenizeKorean query).length 1 : ℕ) : ℝ) :=
      div_nonneg (by positivity) (le_of_lt hqpos)
    have h2 : (0:ℝ) ≤ (((tokenizeKorean d.text).count t : ℕ) : ℝ) /
        ((jsOr (tokenizeKorean d.text).length 1 : ℕ) : ℝ) :=
      div_nonneg (by positivity) (le_of_lt hdpos)
    have h3 := le_of_lt (specIdf_pos docs t)
    exact mul_nonneg (mul_nonneg (mul_nonneg h1 h3) h2) h3
  · have hc1 : (0:ℝ) < (((tokenizeKorean query).count t0 : ℕ) : ℝ) := by
      exact_mod_cast List.count_pos_iff.mpr ht0
    have hc2 : (0:ℝ) < (((tokenizeKorean d.text).count t0 : ℕ) : ℝ) := by
      exact_mod_cast List.count_pos_iff.mpr (hall t0 ht0)
    have h3 := specIdf_pos docs t0
    exact mul_pos (mul_pos (mul_pos (div_pos hc1 hqpos) h3) (div_pos hc2 hdpos)) h3

/-- C3 (amended: the query has at least one term and the two passages
have distinct ids): for a two-passage corpus where A contains every
query term and B contains none, the scorer returns A first with a
positive score and B second with score exactly 0; more generally (for
distinct-id corpora) a passage sharing no term with the query gets a
result entry with score exactly 0, and in the returned ordering a
positively-scoring entry never follows a zero-scoring one. -/
theorem claim_C3 :
    (∀ (A B : Passage) (query : List Char),
        tokenizeKorean query ≠ [] →
        (∀ t ∈ tokenizeKorean query, t ∈ tokenizeKorean A.text) →
        (∀ t ∈ tokenizeKorean query, t ∉ tokenizeKorean B.text) →
        A.id ≠ B.id →
        ∃ s, 0 < s ∧
          score [A, B] query
            = [⟨A.id, s, A.meta⟩, ⟨B.id, 0, B.meta⟩]) ∧
    (∀ (docs : List Passage) (query : List Char), (docs.map Passage.id).Nodup →
        ∀ d ∈ docs, (∀ t ∈ tokenizeKorean query, t ∉ tokenizeKorean d.text) →
        ∃ r ∈ score docs query, r.id = d.id ∧ r.score = 0) ∧
    (∀ (docs : List Passage) (query : List Char),
        (score docs query).Pairwise (fun a b => 0 < b.score → 0 < a.score)) := by
  refine ⟨?_, ?_, ?_⟩
  · intro A B query hq hA hB hid
    have hM : docTokensMap [A, B] = [(A.id, docStatsOf A), (B.id, docStatsOf B)] := by
      unfold docTokensMap
      rw [List.foldl_cons, List.foldl_cons, List.foldl_nil]
      rw [show jsMapSet ([] : List (List Char × DocStats)) A.id (docStatsOf A)
          = [(A.id, docStatsOf A)] from rfl]
      rw [jsMapSet, if_neg hid]
      rfl
    have hgetA : jsMapGet (docTokensMap [A, B]) A.id = some (docStatsOf A) := by
      rw [hM, jsMapGet, if_pos rfl]
    have hgetB : jsMapGet (docTokensMap [A, B]) B.id = some (docStatsOf B) := by
      rw [hM, jsMapGet, if_neg hid, jsMapGet, if_pos rfl]
    have hraw : scoreResultsRaw [A, B] query
        = [⟨A.id, docScoreSum [A, B] query (docStatsOf A), A.meta⟩,
           ⟨B.id, docScoreSum [A, B] query (docStatsOf B), B.meta⟩] := by
      unfold scoreResultsRaw
      rw [List.filterMap_cons_some (by rw [hgetA]; rfl),
        List.filterMap_cons_some (by rw [hgetB]; rfl)]
      rfl
    have hSB : docScoreSum [A, B] query (docStatsOf B) = 0 := by
      apply docScoreSum_zero
      intro t ht
      show getD0 (tfMapOf (tokenizeKorean B.text)) t = 0
      unfold tfMapOf
      rw [getD0_bumpFold, List.count_eq_zero.mpr (hB t ht)]
      simp [getD0, jsMapGet]
    have hSA : 0 < docScoreSum [A, B] query (docStatsOf A) := by
      rw [docScoreSum_eq_spec]
      exact specScore_pos [A, B] query A hq hA
    refine ⟨docScoreSum [A, B] query (docStatsOf A), hSA, ?_⟩
    show List.insertionSort scoreDesc (scoreResultsRaw [A, B] query) = _
    rw [hraw, hSB]
    rw [List.insertionSort, List.insertionSort, List.insertionSort, List.orderedInsert]
    rw [List.orderedInsert,
      if_pos (show scoreDesc ⟨A.id, docScoreSum [A, B] query (docStatsOf A), A.meta⟩
        ⟨B.id, 0, B.meta⟩ from le_of_lt hSA)]
  · intro docs query hnd d hd hnone
    refine ⟨⟨d.id, docScoreSum docs query (docStatsOf d), d.meta⟩, ?_, rfl, ?_⟩
    · show _ ∈ List.insertionSort scoreDesc (scoreResultsRaw docs query)
      rw [List.mem_insertionSort]
      apply List.mem_filterMap.mpr
      exact ⟨d, hd, by rw [docTokensMap_get_of_nodup docs hnd hd]; rfl⟩
    · show docScoreSum docs query (docStatsOf d) = 0
      apply docScoreSum_zero
      intro t ht
      show getD0 (tfMapOf (tokenizeKorean d.text)) t = 0
      unfold tfMapOf
      rw [getD0_bumpFold, List.count_eq_zero.mpr (hnone t ht)]
      simp [getD0, jsMapGet]
  · intro docs query
    have hsorted : List.Sorted scoreDesc (score docs query) :=
      List.sorted_insertionSort scoreDesc _
    exact hsorted.imp (fun hab hpos => lt_of_lt_of_le hpos hab)

theorem claim_C3_witness :
    (tokenizeKorean "입덧".data ≠ [] ∧
     (∀ t ∈ tokenizeKorean "입덧".data, t ∈ tokenizeKorean "입덧 20주".data) ∧
     (∀ t ∈ tokenizeKorean "입덧".data, t ∉ tokenizeKorean "두통".data) ∧
     (['a'] : List Char) ≠ ['b']) ∧
    (∃ s, 0 < s ∧
      score [⟨['a'], "입덧 20주".data, ⟨[], [], [], 0⟩⟩, ⟨['b'], "두통".data, ⟨[], [], [], 0⟩⟩]
          "입덧".data
        = [⟨['a'], s, ⟨[], [], [], 0⟩⟩, ⟨['b'], 0, ⟨[], [], [], 0⟩⟩]) :=
  ⟨⟨by decide, by decide, by decide, by decide⟩,
    claim_C3.1 ⟨['a'], "입덧 20주".data, ⟨[], [], [], 0⟩⟩
      ⟨['b'], "두통".data, ⟨[], [], [], 0⟩⟩ "입덧".data
      (by decide) (by decide) (by decide) (by decide)⟩

/-- C2 counterexample to the claim as stated: with two passages sharing
one id (possible via JSON import), the `docTokens` lookup returns the
later passage's statistics for both, so every returned score is 0 even
though the specified formula gives the first passage a positive score. -/
theorem claim_C2_counterexample :
    (∀ r ∈ score [⟨['x'], "가 가".data, ⟨[], [], [], 0⟩⟩, ⟨['x'], "나".data, ⟨[], [], [], 0⟩⟩]
        "가".data, r.score = 0) ∧
      0 < specScore [⟨['x'], "가 가".data, ⟨[], [], [], 0⟩⟩, ⟨['x'], "나".data, ⟨[], [], [], 0⟩⟩]
        "가".data ⟨['x'], "가 가".data, ⟨[], [], [], 0⟩⟩ := by
  constructor
  · intro r hr
    unfold score at hr
    rw [List.mem_insertionSort] at hr
    rcases List.mem_filterMap.mp hr with ⟨d, hd, heq⟩
    have hget : jsMapGet (docTokensMap [⟨['x'], "가 가".data, ⟨[], [], [], 0⟩⟩,
        ⟨['x'], "나".data, ⟨[], [], [], 0⟩⟩]) d.id
        = some (docStatsOf ⟨['x'], "나".data, ⟨[], [], [], 0⟩⟩) := by
      rcases List.mem_cons.mp hd with rfl | hd1
      · decide
      · rcases List.mem_cons.mp hd1 with rfl | h0
        · decide
        · simp at h0
    rw [hget, Option.map_some'] at heq
    have hr2 := Option.some.inj heq
    have hzero : docScoreSum [⟨['x'], "가 가".data, ⟨[], [], [], 0⟩⟩,
        ⟨['x'], "나".data, ⟨[], [], [], 0⟩⟩] "가".data
        (docStatsOf ⟨['x'], "나".data, ⟨[], [], [], 0⟩⟩) = 0 := by
      apply docScoreSum_zero
      intro t ht
      have htok : tokenizeKorean "가".data = [['가']] := by decide
      rw [htok] at ht
      rcases List.mem_singleton.mp ht with rfl
      decide
    rw [← hr2]
    exact hzero
  · exact specScore_pos _ _ _ (by decide) (by decide)

/-- C3 counterexample to the claim as stated, in two parts: (a) with an
empty query both containment hypotheses hold vacuously, yet no entry for
A has a positive score (all scores are 0); (b) with the two passages
sharing one id, A contains every query term and B none, yet again no
positively-scored entry for A exists, because A's statistics are
shadowed by B's. -/
theorem claim_C3_counterexample :
    ((∀ t ∈ tokenizeKorean ([] : List Char), t ∈ tokenizeKorean "가".data) ∧
     (∀ t ∈ tokenizeKorean ([] : List Char), t ∉ tokenizeKorean "나".data) ∧
     ¬∃ r ∈ score [⟨['a'], "가".data, ⟨[], [], [], 0⟩⟩, ⟨['b'], "나".data, ⟨[], [], [], 0⟩⟩]
        ([] : List Char), r.id = ['a'] ∧ 0 < r.score) ∧
    ((∀ t ∈ tokenizeKorean "가".data, t ∈ tokenizeKorean "가".data) ∧
     (∀ t ∈ tokenizeKorean "가".data, t ∉ tokenizeKorean "나".data) ∧
     ¬∃ r ∈ score [⟨['x'], "가".data, ⟨[], [], [], 0⟩⟩, ⟨['x'], "나".data, ⟨[], [], [], 0⟩⟩]
        "가".data, r.id = ['x'] ∧ 0 < r.score) := by
  refine ⟨⟨by decide, by decide, ?_⟩, ⟨by decide, by decide, ?_⟩⟩
  · rintro ⟨r, hr, _, hpos⟩
    unfold score at hr
    rw [List.mem_insertionSort] at hr
    rcases List.mem_filterMap.mp hr with ⟨d, _, heq⟩
    rcases Option.map_eq_some'.mp heq with ⟨dt, _, hr2⟩
    rw [← hr2] at hpos
    have hpos' : (0:ℝ) < docScoreSum [⟨['a'], "가".data, ⟨[], [], [], 0⟩⟩,
        ⟨['b'], "나".data, ⟨[], [], [], 0⟩⟩] ([] : List Char) dt := hpos
    exact absurd (show (0:ℝ) < 0 from hpos') (lt_irrefl 0)
  · rintro ⟨r, hr, _, hpos⟩
    unfold score at hr
    rw [List.mem_insertionSort] at hr
    rcases List.mem_filterMap.mp hr with ⟨d, hd, heq⟩
    have hget : jsMapGet (docTokensMap [⟨['x'], "가".data, ⟨[], [], [], 0⟩⟩,
        ⟨['x'], "나".data, ⟨[], [], [], 0⟩⟩]) d.id
        = some (docStatsOf ⟨['x'], "나".data, ⟨[], [], [], 0⟩⟩) := by
      rcases List.mem_cons.mp hd with rfl | hd1
      · decide
      · rcases List.mem_cons.mp hd1 with rfl | h0
        · decide
        · simp at h0
    rw [hget, Option.map_some'] at heq
    have hr2 := Option.some.inj heq
    rw [← hr2] at hpos
    have hpos' : (0:ℝ) < docScoreSum [⟨['x'], "가".data, ⟨[], [], [], 0⟩⟩,
        ⟨['x'], "나".data, ⟨[], [], [], 0⟩⟩] "가".data
        (docStatsOf ⟨['x'], "나".data, ⟨[], [], [], 0⟩⟩) := hpos
    have hzero : docScoreSum [⟨['x'], "가".data, ⟨[], [], [], 0⟩⟩,
        ⟨['x'], "나".data, ⟨[], [], [], 0⟩⟩] "가".data
        (docStatsOf ⟨['x'], "나".data, ⟨[], [], [], 0⟩⟩) = 0 := by
      apply docScoreSum_zero
      intro t ht
      have htok : tokenizeKorean "가".data = [['가']] := by decide
      rw [htok] at ht
      rcases List.mem_singleton.mp ht with rfl
      decide
    rw [hzero] at hpos'
    exact absurd hpos' (lt_irrefl 0)
